import Mathlib

/-!
# Verification of the GitHub API backend (`src/app/backends/github_api.js`)

Shallow embedding of the `GithubAPI` class.  The remote Git Data API is
modelled as an explicit `World` state (the object store plus the one mutable
branch ref); every request-performing method of the class becomes a Lean
function threading that state and returning `Except Err` for fallible calls.
Promise chains are sequentialized in program order (recursive subtree merges
and parallel blob uploads are linearized left-to-right; only the allocation
order of fresh object ids depends on this choice, never the structure of the
produced objects).

Notes on the JS source, which the definitions below follow:
* `updateFiles(files, options)` declares its parameter `files` but the body
  iterates `uploads` and shadows `files` with a local array, and the commit /
  ref requests read bare `base` / `branch` and an unbound `this.getBranch`.
  These identifiers are resolved to the evident targets (the input file list
  and the instance fields), as the surrounding code requires.
* A leaf of the duck-typed `fileTree` is the `PendingFile` object itself
  (`file.file = true`); the merge reads only its `file` flag and `sha`, so a
  leaf is embedded as `Node.file sha`.  When the path-building loop walks
  *into* an existing file leaf (one pending path a proper prefix of another),
  the JS sets properties on that file object; those properties are invisible
  to `updateTree` (the `file` flag is checked first), so the embedding leaves
  the tree unchanged in that case.
* The Git Data API semantics the code relies on: `POST /git/trees` with a
  `base_tree` creates a tree whose entries are the base tree's entries
  overridden / extended by the submitted entries (the base tree object is
  immutable, so it is passed here as the already-fetched entry list); without
  `base_tree` the created tree holds exactly the submitted entries
  (`createTreeEntriesNoHint`).  `GET /git/trees/:sha` accepts any tree-ish
  sha (the code passes the branch's *commit* sha), so `World.trees` is keyed
  by tree-ish ids.  `PATCH /git/refs/heads/:branch` without `force` is
  rejected as non-fast-forward when the ref no longer points at an ancestor
  of the new commit; in this program every commit is created with exactly the
  previously fetched head as parent, so the check is `current head ∈ parents`.
* Failure injection: the `failUpload` / `failTree` / `failCommit` flags model
  a rejected HTTP request at the corresponding call, and `raceHead` models a
  concurrent writer moving the branch ref right after `getBranch` reads it.
-/

set_option autoImplicit false

namespace GithubApi

/-- One child of a tree object, as sent and received on the wire
(`{path, mode, type, sha}`). -/
structure TreeEntry where
  path : String
  mode : String
  type : String
  sha  : String
deriving DecidableEq

/-- The duck-typed pending structure built by `updateFiles`: a JS object
mapping a path segment to either a `PendingFile` leaf (`file.file = true`,
embedded by its uploaded blob `sha`) or a nested directory object. -/
inductive Node where
  | file (sha : String)
  | dir  (children : List (String × Node))

/-- A JS object used as a string-keyed map, in insertion order. -/
abbrev FileTree := List (String × Node)

/-- Property lookup on a `FileTree` object (`fileTree[key]`). -/
def getKey (t : FileTree) (k : String) : Option Node :=
  (t.find? (fun p => p.1 = k)).map (fun p => p.2)

/-- Property assignment on a `FileTree` object (`subtree[key] = v`):
overwrites in place if the key exists (keeping its position), otherwise
appends. -/
def setKey (t : FileTree) (k : String) (v : Node) : FileTree :=
  if t.any (fun p => p.1 = k) then
    t.map (fun p => if p.1 = k then (k, v) else p)
  else
    t ++ [(k, v)]

/-- Split a character list at every occurrence of `c` (the semantics of
JS's `String.prototype.split` with a one-character separator). -/
def splitOnChar (c : Char) : List Char → List (List Char)
  | [] => [[]]
  | x :: xs =>
    if x = c then [] :: splitOnChar c xs
    else
      match splitOnChar c xs with
      | s :: rest => (x :: s) :: rest
      | [] => [[x]]

/-- `file.path.split("/").filter((part) => part)`: split on slashes and drop
empty segments (empty strings are falsy). -/
def splitPath (p : String) : List String :=
  ((splitOnChar '/' p.toList).map (fun l => String.mk l)).filter (fun s => s ≠ "")

/-- The path-placement loop of `updateFiles`: walk `dirs` from the root,
creating `{}` objects for missing segments, then assign the leaf at `fname`.
Walking into an existing file leaf sets properties on that file object,
which the merge never reads, so the tree is returned unchanged there. -/
def insertParts (t : FileTree) (dirs : List String) (fname : String) (leaf : Node) : FileTree :=
  match dirs with
  | [] => setKey t fname leaf
  | d :: rest =>
    match getKey t d with
    | some (Node.dir cs) => setKey t d (Node.dir (insertParts cs rest fname leaf))
    | some (Node.file _) => t
    | none => setKey t d (Node.dir (insertParts [] rest fname leaf))

/-- A caller-supplied file change: `{path, content, sha, uploaded, upload}`.
`sha`/`uploaded` are filled in by `uploadBlob`; a truthy `upload` makes
`updateFiles` take the file as-is without uploading it. -/
structure PendingFile where
  path     : String
  content  : String
  sha      : String
  uploaded : Bool
  upload   : Bool

/-- `updateFiles` options (`{message}`). -/
structure Options where
  message : String

/-- A commit object as created by `POST /git/commits`
(`{message, tree, parents}`); a parent slot is `none` when the JS would
serialize `null`. -/
structure CommitObj where
  message : String
  tree    : String
  parents : List (Option String)
deriving DecidableEq

/-- Failure outcomes of the remote requests. -/
inductive Err where
  | notFound
  | uploadFailed
  | treeCreateFailed
  | commitCreateFailed
  | notFastForward
deriving DecidableEq

/-- The remote repository state: the content-addressed object store (trees
keyed by tree-ish sha, blobs, commits) plus the single mutable branch ref,
a fresh-id counter, the injected request-failure flags and the simulated
concurrent ref move. -/
structure World where
  trees      : List (String × List TreeEntry)
  blobs      : List (String × String)
  commits    : List (String × CommitObj)
  head       : String
  counter    : Nat
  failUpload : Bool
  failTree   : Bool
  failCommit : Bool
  raceHead   : Option String

/-- Fresh object ids assigned by the store. -/
def freshSha (n : Nat) : String := "new-" ++ toString n

/-- First-match lookup in a sha-keyed association list. -/
def lookupSha {α : Type} (m : List (String × α)) (k : String) : Option α :=
  (m.find? (fun p => p.1 = k)).map (fun p => p.2)

/-- Git Data API semantics of `POST /git/trees` with a `base_tree`: the base
tree's entries, each overridden by the first submitted entry at its path,
followed by the submitted entries at new paths. -/
def applyUpdates (base upds : List TreeEntry) : List TreeEntry :=
  base.map (fun e =>
    match upds.find? (fun u => u.path = e.path) with
    | some u => u
    | none => e)
  ++ upds.filter (fun u => ¬ base.any (fun e => e.path = u.path))

/-- Modelled from the spec's words for the hint-less alternative (§4.1 step 4
calls `base_tree` "purely an optimization"): `POST /git/trees` *without* a
`base_tree` persists exactly the submitted entries. -/
def createTreeEntriesNoHint (upds : List TreeEntry) : List TreeEntry := upds

/-- `getTree(sha)`: `sha ? this.request(base + "/git/trees/" + sha)
: Promise.resolve({tree: []})` — a `null` sha yields an empty entry list
without touching the store; otherwise the tree-ish object is fetched (404
when absent). -/
def getTreeE (w : World) (sha : Option String) : Except Err (List TreeEntry) :=
  match sha with
  | none => .ok []
  | some s =>
    match lookupSha w.trees s with
    | some es => .ok es
    | none => .error .notFound

/-- `POST /git/trees` with `{base_tree: sha, tree: updates}` (the base tree's
entries were fetched by the caller): allocates a fresh id and stores
`applyUpdates base upds`.  Fails when tree-creation failure is injected. -/
def createTreeE (w : World) (base : List TreeEntry) (upds : List TreeEntry) :
    Except Err String × World :=
  if w.failTree then (.error .treeCreateFailed, w)
  else
    let sha := freshSha w.counter
    (.ok sha, { w with trees := (sha, applyUpdates base upds) :: w.trees,
                       counter := w.counter + 1 })

/-- `POST /git/commits` with `{message, tree, parents}`. -/
def createCommitE (w : World) (msg : String) (tree : String) (parents : List (Option String)) :
    Except Err String × World :=
  if w.failCommit then (.error .commitCreateFailed, w)
  else
    let sha := freshSha w.counter
    (.ok sha, { w with commits := (sha, ⟨msg, tree, parents⟩) :: w.commits,
                       counter := w.counter + 1 })

/-- `PATCH /git/refs/heads/:branch` with `{sha}` and no `force`: the server
rejects the move as non-fast-forward unless the named commit descends from
the current head (here: lists it as a parent, which is the only shape this
program creates). -/
def updateRefE (w : World) (newSha : String) : Except Err Unit × World :=
  match lookupSha w.commits newSha with
  | none => (.error .notFound, w)
  | some c =>
    if (some w.head) ∈ c.parents then (.ok (), { w with head := newSha })
    else (.error .notFastForward, w)

/-- The simulated concurrent writer: moves the branch ref right after
`getBranch` has read it. -/
def raceStep (w : World) : World :=
  match w.raceHead with
  | some h => { w with head := h, raceHead := none }
  | none => w

/-- One iteration's upload decision: `file.upload ? file :
this.uploadBlob(file)` — with a truthy `upload` the file is taken as-is;
otherwise `uploadBlob` posts the content and records the assigned blob id on
the file (`file.sha = response.sha; file.uploaded = true`). -/
def uploadStep (w : World) (f : PendingFile) : Except Err PendingFile × World :=
  if f.upload then (.ok f, w)
  else if w.failUpload then (.error .uploadFailed, w)
  else
    let sha := freshSha w.counter
    (.ok { f with sha := sha, uploaded := true },
     { w with blobs := (sha, f.content) :: w.blobs, counter := w.counter + 1 })

/-- The first loop of `updateFiles`: for each input file, skip it entirely
when `file.uploaded` is set (`continue`), otherwise upload it and place its
leaf into the `fileTree` at its slash-split path (`filename` is the last
segment; an empty split leaves JS's `parts.pop()` `undefined`, which
stringifies to the property key `"undefined"`). -/
def uploadAndBuild (w : World) (fileTree : FileTree) (files : List PendingFile) :
    Except Err FileTree × World :=
  match files with
  | [] => (.ok fileTree, w)
  | f :: rest =>
    if f.uploaded then uploadAndBuild w fileTree rest
    else
      match uploadStep w f with
      | (.error e, w1) => (.error e, w1)
      | (.ok f', w1) =>
        let parts := splitPath f'.path
        let fname := parts.getLast?.getD "undefined"
        let dirs := parts.dropLast
        uploadAndBuild w1 (insertParts fileTree dirs fname (Node.file f'.sha)) rest

/-- Sub-node lookup bounds the size, for termination of the merge. -/
theorem getKey_sizeOf {t : FileTree} {k : String} {n : Node}
    (h : getKey t k = some n) : sizeOf n < sizeOf t := by
  induction t with
  | nil => simp [getKey] at h
  | cons p rest ih =>
    by_cases hk : p.1 = k
    · rw [getKey, List.find?] at h
      simp only [hk] at h
      simp at h
      cases p
      simp_all
      omega
    · rw [getKey, List.find?] at h
      simp only [hk] at h
      simp at h
      have := ih (by rw [getKey]; simpa using h)
      have h2 : sizeOf rest < sizeOf (p :: rest) := by simp
      omega

/-- `{path, mode, type, sha, parentSha}` as resolved from a recursive
`updateTree` call. -/
structure TreeResult where
  path      : String
  mode      : String
  type      : String
  sha       : String
  parentSha : Option String

/-- The recursive result pushed into the `updates` array; the extra
`parentSha` field is ignored by the tree-creation endpoint. -/
def toEntry (r : TreeResult) : TreeEntry := ⟨r.path, r.mode, r.type, r.sha⟩

mutual

/-- `updateTree(sha, path, fileTree)`: fetch the existing tree, walk its
entries against the pending object (`passExisting`), then the pending keys
not yet consumed (`passNew`), and `POST /git/trees` with
`{base_tree: sha, tree: updates}`, resolving to
`{path, mode: "040000", type: "tree", sha: response.sha, parentSha: sha}`. -/
def updateTree (w : World) (sha : Option String) (path : String) (fileTree : FileTree) :
    Except Err TreeResult × World :=
  match getTreeE w sha with
  | .error e => (.error e, w)
  | .ok baseEntries =>
    match passExisting w baseEntries fileTree with
    | (.error e, w1) => (.error e, w1)
    | (.ok (upds1, _added), w1) =>
      match passNew w1 fileTree _added with
      | (.error e, w2) => (.error e, w2)
      | (.ok upds2, w2) =>
        match createTreeE w2 baseEntries (upds1 ++ upds2) with
        | (.error e, w3) => (.error e, w3)
        | (.ok newSha, w3) =>
          (.ok { path := path, mode := "040000", type := "tree",
                 sha := newSha, parentSha := sha }, w3)
termination_by (sizeOf fileTree, 2, 0)
decreasing_by
  · exact Prod.Lex.right _ (Prod.Lex.left _ _ (by omega))
  · exact Prod.Lex.right _ (Prod.Lex.left _ _ (by omega))

/-- The first loop of `updateTree`: for each entry of the fetched tree whose
path segment occurs in the pending object, push the replacement (file case:
`{path, mode: obj.mode, type: obj.type, sha: pending.sha}`; directory case:
the recursive merge on the entry's sha) and record the segment in `added`.
Entries absent from the pending object are *not* pushed. -/
def passExisting (w : World) (entries : List TreeEntry) (fileTree : FileTree) :
    Except Err (List TreeEntry × List String) × World :=
  match entries with
  | [] => (.ok ([], []), w)
  | e :: rest =>
    match _hk : getKey fileTree e.path with
    | none => passExisting w rest fileTree
    | some (Node.file s) =>
      (match passExisting w rest fileTree with
       | (.error err, w1) => (.error err, w1)
       | (.ok (us, ad), w1) => (.ok (⟨e.path, e.mode, e.type, s⟩ :: us, e.path :: ad), w1))
    | some (Node.dir cs) =>
      match updateTree w (some e.sha) e.path cs with
      | (.error err, w1) => (.error err, w1)
      | (.ok r, w1) =>
        match passExisting w1 rest fileTree with
        | (.error err, w2) => (.error err, w2)
        | (.ok (us, ad), w2) => (.ok (toEntry r :: us, e.path :: ad), w2)
termination_by (sizeOf fileTree, 1, sizeOf entries)
decreasing_by
  · exact Prod.Lex.right _ (Prod.Lex.right _ (by simp))
  · exact Prod.Lex.right _ (Prod.Lex.right _ (by simp))
  · have h1 : sizeOf (Node.dir cs) < sizeOf fileTree := getKey_sizeOf _hk
    have h2 : sizeOf cs < sizeOf (Node.dir cs) := by simp
    exact Prod.Lex.left _ _ (by omega)
  · exact Prod.Lex.right _ (Prod.Lex.right _ (by simp))

/-- The second loop of `updateTree`: for each pending key not consumed by
`passExisting`, push `{path: filename, mode: "100644", type: "blob", sha}`
for a file, or the recursive merge with a `null` base tree for a new
directory. -/
def passNew (w : World) (pending : FileTree) (added : List String) :
    Except Err (List TreeEntry) × World :=
  match pending with
  | [] => (.ok [], w)
  | (k, n) :: rest =>
    if added.any (fun a => a = k) then passNew w rest added
    else
      match n with
      | Node.file s =>
        (match passNew w rest added with
         | (.error err, w1) => (.error err, w1)
         | (.ok us, w1) => (.ok (⟨k, "100644", "blob", s⟩ :: us), w1))
      | Node.dir cs =>
        match updateTree w none k cs with
        | (.error err, w1) => (.error err, w1)
        | (.ok r, w1) =>
          match passNew w1 rest added with
          | (.error err, w2) => (.error err, w2)
          | (.ok us, w2) => (.ok (toEntry r :: us), w2)
termination_by (sizeOf pending, 0, 0)
decreasing_by
  · exact Prod.Lex.left _ _ (by simp)
  · exact Prod.Lex.left _ _ (by simp)
  · exact Prod.Lex.left _ _ (by simp; omega)
  · exact Prod.Lex.left _ _ (by simp)

end

/-- The two `updates`-building loops of `updateTree` composed: what is
submitted as the request's `tree` array. -/
def collectUpdates (w : World) (base : List TreeEntry) (ft : FileTree) :
    Except Err (List TreeEntry) × World :=
  match passExisting w base ft with
  | (.error e, w1) => (.error e, w1)
  | (.ok (us1, added), w1) =>
    match passNew w1 ft added with
    | (.error e, w2) => (.error e, w2)
    | (.ok us2, w2) => (.ok (us1 ++ us2), w2)

/-- `updateFiles` up to and including commit creation: upload the pending
blobs and build the `fileTree` (first loop), `getBranch` (the head commit
sha is read here; a concurrent writer may move the ref right afterwards),
merge at the root (`updateTree(branchData.commit.sha, "/", fileTree)`), then
`POST /git/commits` with `{message: options.message, tree: changeTree.sha,
parents: [changeTree.parentSha]}`. -/
def preRef (w : World) (files : List PendingFile) (options : Options) :
    Except Err String × World :=
  match uploadAndBuild w [] files with
  | (.error e, w1) => (.error e, w1)
  | (.ok fileTree, w1) =>
    let headSha := w1.head
    let w2 := raceStep w1
    match updateTree w2 (some headSha) "/" fileTree with
    | (.error e, w3) => (.error e, w3)
    | (.ok changeTree, w3) =>
      createCommitE w3 options.message changeTree.sha [changeTree.parentSha]

/-- `updateFiles(files, options)`: the full promise chain — uploads, branch
fetch, root merge, commit creation, and finally
`PATCH /git/refs/heads/:branch` with the new commit sha. -/
def updateFiles (w : World) (files : List PendingFile) (options : Options) :
    Except Err Unit × World :=
  match preRef w files options with
  | (.error e, w1) => (.error e, w1)
  | (.ok commitSha, w1) => updateRefE w1 commitSha

/-! ### Defining equations of the merge, one per source branch -/

theorem passExisting_nil (w : World) (ft : FileTree) :
    passExisting w [] ft = (.ok ([], []), w) := by
  rw [passExisting]

theorem passExisting_cons_none {ft : FileTree} {e : TreeEntry} (w : World)
    (rest : List TreeEntry) (h : getKey ft e.path = none) :
    passExisting w (e :: rest) ft = passExisting w rest ft := by
  rw [passExisting]
  split <;> simp_all

theorem passExisting_cons_file {ft : FileTree} {e : TreeEntry} {s : String} (w : World)
    (rest : List TreeEntry) (h : getKey ft e.path = some (Node.file s)) :
    passExisting w (e :: rest) ft =
      (match passExisting w rest ft with
       | (.error err, w1) => (.error err, w1)
       | (.ok (us, ad), w1) =>
         (.ok (⟨e.path, e.mode, e.type, s⟩ :: us, e.path :: ad), w1)) := by
  rw [passExisting]
  split <;> simp_all

theorem passExisting_cons_dir {ft : FileTree} {e : TreeEntry} {cs : List (String × Node)}
    (w : World) (rest : List TreeEntry) (h : getKey ft e.path = some (Node.dir cs)) :
    passExisting w (e :: rest) ft =
      (match updateTree w (some e.sha) e.path cs with
       | (.error err, w1) => (.error err, w1)
       | (.ok r, w1) =>
         match passExisting w1 rest ft with
         | (.error err, w2) => (.error err, w2)
         | (.ok (us, ad), w2) => (.ok (toEntry r :: us, e.path :: ad), w2)) := by
  rw [passExisting]
  split <;> simp_all

theorem passNew_nil (w : World) (added : List String) :
    passNew w [] added = (.ok [], w) := by
  rw [passNew]

theorem passNew_cons_skip {added : List String} {k : String} (w : World) (n : Node)
    (rest : FileTree) (h : (added.any fun a => a = k) = true) :
    passNew w ((k, n) :: rest) added = passNew w rest added := by
  rw [passNew.eq_def]
  simp [h]

theorem passNew_cons_file {added : List String} {k : String} (w : World) (s : String)
    (rest : FileTree) (h : (added.any fun a => a = k) = false) :
    passNew w ((k, Node.file s) :: rest) added =
      (match passNew w rest added with
       | (.error err, w1) => (.error err, w1)
       | (.ok us, w1) => (.ok (⟨k, "100644", "blob", s⟩ :: us), w1)) := by
  rw [passNew.eq_def]
  simp [h]

theorem passNew_cons_dir {added : List String} {k : String} (w : World)
    (cs : List (String × Node)) (rest : FileTree)
    (h : (added.any fun a => a = k) = false) :
    passNew w ((k, Node.dir cs) :: rest) added =
      (match updateTree w none k cs with
       | (.error err, w1) => (.error err, w1)
       | (.ok r, w1) =>
         match passNew w1 rest added with
         | (.error err, w2) => (.error err, w2)
         | (.ok us, w2) => (.ok (toEntry r :: us), w2)) := by
  rw [passNew.eq_def]
  simp [h]

theorem updateTree_eq (w : World) (sha : Option String) (path : String) (ft : FileTree) :
    updateTree w sha path ft =
      (match getTreeE w sha with
       | .error e => (.error e, w)
       | .ok baseEntries =>
         match collectUpdates w baseEntries ft with
         | (.error e, w2) => (.error e, w2)
         | (.ok upds, w2) =>
           match createTreeE w2 baseEntries upds with
           | (.error e, w3) => (.error e, w3)
           | (.ok newSha, w3) =>
             (.ok { path := path, mode := "040000", type := "tree",
                    sha := newSha, parentSha := sha }, w3)) := by
  rw [updateTree]
  cases hg : getTreeE w sha with
  | error e => rfl
  | ok base =>
    simp only [collectUpdates]
    generalize passExisting w base ft = pe
    rcases pe with ⟨e | ⟨us1, ad⟩, w1⟩
    · rfl
    · dsimp only
      generalize passNew w1 ft ad = pn
      rcases pn with ⟨e | us2, w2⟩
      · rfl
      · rfl

/-- What `passNew` emits for one not-yet-consumed pending key. -/
def newEntryRel (kv : String × Node) (e : TreeEntry) : Prop :=
  match kv.2 with
  | Node.file s => e = ⟨kv.1, "100644", "blob", s⟩
  | Node.dir cs => e.path = kv.1 ∧ e.mode = "040000" ∧ e.type = "tree" ∧
      ∃ w₁ w₂ r, updateTree w₁ none kv.1 cs = (.ok r, w₂) ∧ e = toEntry r

/-- What `passExisting` emits for one existing entry whose path segment
occurs in the pending object. -/
def exRel (ft : FileTree) (e : TreeEntry) (u : TreeEntry) : Prop :=
  match getKey ft e.path with
  | some (Node.file s) => u = ⟨e.path, e.mode, e.type, s⟩
  | some (Node.dir cs) => u.path = e.path ∧ u.mode = "040000" ∧ u.type = "tree" ∧
      ∃ w₁ w₂ r, updateTree w₁ (some e.sha) e.path cs = (.ok r, w₂) ∧ u = toEntry r
  | none => False

/-! ### Basic store / object lemmas -/

theorem lookupSha_cons_self {α : Type} (t : List (String × α)) (k : String) (v : α) :
    lookupSha ((k, v) :: t) k = some v := by
  simp [lookupSha]

theorem getKey_cons (a : String) (b : Node) (t : FileTree) (k : String) :
    getKey ((a, b) :: t) k = if a = k then some b else getKey t k := by
  rw [getKey, List.find?]
  by_cases h : a = k
  · simp [h]
  · simp [h, getKey]

theorem getKey_eq_none {t : FileTree} {k : String} :
    getKey t k = none ↔ k ∉ t.map Prod.fst := by
  induction t with
  | nil => simp [getKey]
  | cons p rest ih =>
    rcases p with ⟨a, b⟩
    rw [getKey_cons]
    by_cases h : a = k
    · simp [h]
    · simp [h, ih]
      intro _
      exact fun hk => h hk.symm

theorem getKey_mem {t : FileTree} {k : String} {n : Node}
    (h : getKey t k = some n) : (k, n) ∈ t := by
  simp only [getKey, Option.map_eq_some'] at h
  rcases h with ⟨p, hp, hpn⟩
  have h1 := List.find?_some hp
  have h2 := List.mem_of_find?_eq_some hp
  rcases p with ⟨a, b⟩
  simp only [decide_eq_true_eq] at h1
  simp only at hpn
  subst h1
  subst hpn
  exact h2

/-- The resolved value of a successful `updateTree` call always carries the
call's own `path`, tree mode/type, and `parentSha = sha`. -/
theorem updateTree_ok_shape {w : World} {sha : Option String} {path : String}
    {ft : FileTree} {r : TreeResult} {w' : World}
    (h : updateTree w sha path ft = (.ok r, w')) :
    r.path = path ∧ r.mode = "040000" ∧ r.type = "tree" ∧ r.parentSha = sha := by
  rw [updateTree_eq] at h
  split at h
  · cases h
  · split at h
    · cases h
    · split at h
      · cases h
      · simp only [Prod.mk.injEq, Except.ok.injEq] at h
        rw [← h.1]
        simp

/-- A successful `updateTree` call decomposed into its sequence: tree fetch,
update collection, and the stored result of tree creation. -/
theorem updateTree_ok_decomp {w : World} {sha : Option String} {path : String}
    {ft : FileTree} {r : TreeResult} {w' : World}
    (h : updateTree w sha path ft = (.ok r, w')) :
    ∃ base upds w2,
      getTreeE w sha = .ok base ∧
      collectUpdates w base ft = (.ok upds, w2) ∧
      w2.failTree = false ∧
      r = { path := path, mode := "040000", type := "tree",
            sha := freshSha w2.counter, parentSha := sha } ∧
      w' = { w2 with trees := (freshSha w2.counter, applyUpdates base upds) :: w2.trees,
                     counter := w2.counter + 1 } := by
  rw [updateTree_eq] at h
  split at h
  · cases h
  · rename_i base hg
    split at h
    · cases h
    · rename_i upds w2 hc
      split at h
      · cases h
      · rename_i newSha w3 hcr
        rw [createTreeE] at hcr
        split at hcr
        · cases hcr
        · rename_i hflag
          simp only [Prod.mk.injEq, Except.ok.injEq] at h hcr
          obtain ⟨hr1, hr2⟩ := h
          obtain ⟨hc1, hc2⟩ := hcr
          subst hc1
          refine ⟨base, upds, w2, hg, hc, by simpa using hflag, hr1.symm, ?_⟩
          rw [← hr2, ← hc2]

/-- On success, the created tree is the head of the final store: its entries
are the fetched base entries merged with the submitted updates. -/
theorem updateTree_ok_lookup {w : World} {sha : Option String} {path : String}
    {ft : FileTree} {r : TreeResult} {w' : World}
    (h : updateTree w sha path ft = (.ok r, w')) :
    ∃ base upds w2,
      getTreeE w sha = .ok base ∧
      collectUpdates w base ft = (.ok upds, w2) ∧
      lookupSha w'.trees r.sha = some (applyUpdates base upds) := by
  rcases updateTree_ok_decomp h with ⟨base, upds, w2, hg, hc, _, hr, hw⟩
  refine ⟨base, upds, w2, hg, hc, ?_⟩
  rw [hw, hr]
  exact lookupSha_cons_self _ _ _

/-! ### The merge only creates tree objects -/

/-- Relation between the worlds before and after any (partial) run of the
merge: branch head, commits, blobs, failure flags and the race injection are
untouched, and the tree store only grows by prepended objects. -/
def TreeQuiet (w w' : World) : Prop :=
  w'.head = w.head ∧ w'.commits = w.commits ∧ w'.blobs = w.blobs ∧
  w'.failUpload = w.failUpload ∧ w'.failTree = w.failTree ∧
  w'.failCommit = w.failCommit ∧ w'.raceHead = w.raceHead ∧
  ∃ pre, w'.trees = pre ++ w.trees

theorem treeQuiet_refl (w : World) : TreeQuiet w w :=
  ⟨rfl, rfl, rfl, rfl, rfl, rfl, rfl, [], rfl⟩

theorem treeQuiet_trans {w1 w2 w3 : World}
    (h1 : TreeQuiet w1 w2) (h2 : TreeQuiet w2 w3) : TreeQuiet w1 w3 := by
  obtain ⟨a1, a2, a3, a4, a5, a6, a7, p1, hp1⟩ := h1
  obtain ⟨b1, b2, b3, b4, b5, b6, b7, p2, hp2⟩ := h2
  refine ⟨?_, ?_, ?_, ?_, ?_, ?_, ?_, p2 ++ p1, ?_⟩ <;>
    simp_all

/-- Master preservation statement, by strong induction on the size of the
pending object (the well-founded measure of the mutual recursion). -/
theorem treeQuiet_main (N : Nat) :
    (∀ w sha path ft, sizeOf (ft : FileTree) ≤ N →
        TreeQuiet w (updateTree w sha path ft).2) ∧
    (∀ w entries ft, sizeOf (ft : FileTree) ≤ N →
        TreeQuiet w (passExisting w entries ft).2) ∧
    (∀ w pending added, sizeOf (pending : FileTree) ≤ N →
        TreeQuiet w (passNew w pending added).2) := by
  induction N using Nat.strong_induction_on with
  | _ N IH =>
    have hPE : ∀ w entries (ft : FileTree), sizeOf ft ≤ N →
        TreeQuiet w (passExisting w entries ft).2 := by
      intro w entries ft hsz
      induction entries generalizing w with
      | nil => rw [passExisting_nil]; exact treeQuiet_refl w
      | cons e rest ihe =>
        cases hk : getKey ft e.path with
        | none => rw [passExisting_cons_none _ _ hk]; exact ihe w
        | some n =>
          cases n with
          | file s =>
            rw [passExisting_cons_file _ _ hk]
            rcases hr : passExisting w rest ft with ⟨res, w1⟩
            try rw [hr]
            have := ihe w
            rw [hr] at this
            cases res <;> simpa using this
          | dir cs =>
            rw [passExisting_cons_dir _ _ hk]
            have hcs : sizeOf cs < sizeOf ft := by
              have h1 := getKey_sizeOf hk
              have h2 : sizeOf cs < sizeOf (Node.dir cs) := by simp
              omega
            have hq1 : TreeQuiet w (updateTree w (some e.sha) e.path cs).2 :=
              (IH (sizeOf cs) (by omega)).1 w (some e.sha) e.path cs (le_refl _)
            rcases hu : updateTree w (some e.sha) e.path cs with ⟨res, w1⟩
            try rw [hu]
            rw [hu] at hq1
            cases res with
            | error e => simpa using hq1
            | ok r =>
              dsimp only
              have hq2 := ihe w1
              rcases hr : passExisting w1 rest ft with ⟨res2, w2⟩
              try rw [hr]
              rw [hr] at hq2
              cases res2 with
              | error e => simpa using treeQuiet_trans hq1 hq2
              | ok pr =>
                rcases pr with ⟨us, ad⟩
                simpa using treeQuiet_trans hq1 hq2
    have hPN : ∀ w (pending : FileTree) added, sizeOf pending ≤ N →
        TreeQuiet w (passNew w pending added).2 := by
      intro w pending added hsz
      induction pending generalizing w with
      | nil => rw [passNew_nil]; exact treeQuiet_refl w
      | cons kv rest ihp =>
        rcases kv with ⟨k, n⟩
        have hszr : sizeOf rest ≤ N := by
          have : sizeOf rest < sizeOf ((k, n) :: rest) := by simp
          omega
        cases ha : added.any (fun a => a = k) with
        | true => rw [passNew_cons_skip _ _ _ ha]; exact ihp w hszr
        | false =>
          cases n with
          | file s =>
            rw [passNew_cons_file _ _ _ ha]
            rcases hr : passNew w rest added with ⟨res, w1⟩
            try rw [hr]
            have := ihp w hszr
            rw [hr] at this
            cases res <;> simpa using this
          | dir cs =>
            rw [passNew_cons_dir _ _ _ ha]
            have hcs : sizeOf cs < sizeOf ((k, Node.dir cs) :: rest) := by
              simp
              omega
            have hq1 : TreeQuiet w (updateTree w none k cs).2 :=
              (IH (sizeOf cs) (by omega)).1 w none k cs (le_refl _)
            rcases hu : updateTree w none k cs with ⟨res, w1⟩
            try rw [hu]
            rw [hu] at hq1
            cases res with
            | error e => simpa using hq1
            | ok r =>
              dsimp only
              have hq2 := ihp w1 hszr
              rcases hr : passNew w1 rest added with ⟨res2, w2⟩
              try rw [hr]
              rw [hr] at hq2
              cases res2 with
              | error e => simpa using treeQuiet_trans hq1 hq2
              | ok us => simpa using treeQuiet_trans hq1 hq2
    refine ⟨?_, hPE, hPN⟩
    intro w sha path ft hsz
    rw [updateTree_eq]
    cases hg : getTreeE w sha with
    | error e => exact treeQuiet_refl w
    | ok base =>
      simp only [collectUpdates]
      have hq1 := hPE w base ft hsz
      rcases hpe : passExisting w base ft with ⟨res, w1⟩
      try rw [hpe]
      rw [hpe] at hq1
      cases res with
      | error e => simpa using hq1
      | ok pr =>
        rcases pr with ⟨us1, ad⟩
        dsimp only
        simp only at hq1
        have hq2 := hPN w1 ft ad (by
          have := hq1
          exact hsz)
        rcases hpn : passNew w1 ft ad with ⟨res2, w2⟩
        try rw [hpn]
        rw [hpn] at hq2
        cases res2 with
        | error e => simpa using treeQuiet_trans hq1 hq2
        | ok us2 =>
          dsimp only
          simp only at hq2
          have hq12 := treeQuiet_trans hq1 hq2
          cases hft : w2.failTree with
          | true =>
            simp only [createTreeE, hft]
            simpa using hq12
          | false =>
            simp only [createTreeE, hft]
            simp only [if_neg (by simp : ¬ (false = true))]
            refine treeQuiet_trans hq12 ?_
            exact ⟨rfl, rfl, rfl, rfl, hft.symm, rfl, rfl,
              [(freshSha w2.counter, applyUpdates base (us1 ++ us2))], rfl⟩

/-- Any outcome of the merge leaves head, commits, blobs and flags
untouched and only prepends created tree objects. -/
theorem updateTree_quiet (w : World) (sha : Option String) (path : String)
    (ft : FileTree) : TreeQuiet w (updateTree w sha path ft).2 :=
  (treeQuiet_main (sizeOf ft)).1 w sha path ft (le_refl _)

theorem TreeQuiet.head_eq {w w' : World} (h : TreeQuiet w w') : w'.head = w.head := h.1

theorem TreeQuiet.commits_eq {w w' : World} (h : TreeQuiet w w') : w'.commits = w.commits :=
  h.2.1

theorem TreeQuiet.failTree_eq {w w' : World} (h : TreeQuiet w w') : w'.failTree = w.failTree :=
  h.2.2.2.2.1

theorem TreeQuiet.raceHead_eq {w w' : World} (h : TreeQuiet w w') : w'.raceHead = w.raceHead :=
  h.2.2.2.2.2.2.1

/-! ### Success of the merge on fresh directories -/

/-- When tree creation is not failing, a merge against a `null` base tree
(no remote fetch, empty existing entry list) always succeeds — and so does
the whole second loop, whose recursive calls all use a `null` base. -/
theorem success_main (N : Nat) :
    (∀ (ft : FileTree) w p, sizeOf ft ≤ N → w.failTree = false →
        ∃ r w', updateTree w none p ft = (.ok r, w')) ∧
    (∀ (pending : FileTree) w added, sizeOf pending ≤ N → w.failTree = false →
        ∃ us w', passNew w pending added = (.ok us, w')) := by
  induction N using Nat.strong_induction_on with
  | _ N IH =>
    have hPN : ∀ (pending : FileTree) w added, sizeOf pending ≤ N → w.failTree = false →
        ∃ us w', passNew w pending added = (.ok us, w') := by
      intro pending
      induction pending with
      | nil => exact fun w added _ _ => ⟨[], w, passNew_nil w added⟩
      | cons kv rest ihp =>
        intro w added hsz hflag
        rcases kv with ⟨k, n⟩
        have hszr : sizeOf rest ≤ N := by
          have : sizeOf rest < sizeOf ((k, n) :: rest) := by simp
          omega
        cases ha : added.any (fun a => a = k) with
        | true =>
          rw [passNew_cons_skip _ _ _ ha]
          exact ihp w added hszr hflag
        | false =>
          cases n with
          | file s =>
            rw [passNew_cons_file _ _ _ ha]
            rcases ihp w added hszr hflag with ⟨us, w1, hr⟩
            rw [hr]
            exact ⟨_, _, rfl⟩
          | dir cs =>
            rw [passNew_cons_dir _ _ _ ha]
            have hcs : sizeOf cs < sizeOf ((k, Node.dir cs) :: rest) := by
              simp
              omega
            rcases (IH (sizeOf cs) (by omega)).1 cs w k (le_refl _) hflag with ⟨r, w1, hu⟩
            rw [hu]
            dsimp only
            have hq := updateTree_quiet w none k cs
            rw [hu] at hq
            have hflag1 : w1.failTree = false := by
              rw [hq.failTree_eq]
              exact hflag
            rcases ihp w1 added hszr hflag1 with ⟨us, w2, hr⟩
            rw [hr]
            exact ⟨_, _, rfl⟩
    refine ⟨?_, hPN⟩
    intro ft w p hsz hflag
    rw [updateTree_eq]
    simp only [getTreeE, collectUpdates, passExisting_nil]
    rcases hPN ft w [] hsz hflag with ⟨us, w2, hpn⟩
    rw [hpn]
    have hq := (treeQuiet_main (sizeOf ft)).2.2 w ft [] (le_refl _)
    rw [hpn] at hq
    have hflag2 : w2.failTree = false := by
      rw [hq.failTree_eq]
      exact hflag
    simp only [createTreeE, hflag2]
    simp only [if_neg (by simp : ¬ (false = true))]
    exact ⟨_, _, rfl⟩

/-- A fresh-directory merge (`baseTreeId = null`) succeeds whenever tree
creation is not failing. -/
theorem updateTree_none_success (w : World) (p : String) (ft : FileTree)
    (hflag : w.failTree = false) :
    ∃ r w', updateTree w none p ft = (.ok r, w') :=
  (success_main (sizeOf ft)).1 ft w p (le_refl _) hflag

/-- The second loop succeeds whenever tree creation is not failing. -/
theorem passNew_success (w : World) (pending : FileTree) (added : List String)
    (hflag : w.failTree = false) :
    ∃ us w', passNew w pending added = (.ok us, w') :=
  (success_main (sizeOf pending)).2 pending w added (le_refl _) hflag

/-! ### Characterization of the two update-collection loops -/

/-- `passExisting` with no pending hit copies nothing: when every existing
entry's segment is absent from the pending object, the loop contributes no
updates, consumes nothing, and performs no request. -/
theorem passExisting_disjoint {ft : FileTree} {entries : List TreeEntry} (w : World)
    (h : ∀ e ∈ entries, getKey ft e.path = none) :
    passExisting w entries ft = (.ok ([], []), w) := by
  induction entries with
  | nil => exact passExisting_nil w ft
  | cons e rest ih =>
    rw [passExisting_cons_none _ _ (h e (by simp))]
    exact ih (fun e' he' => h e' (by simp [he']))

/-- What a successful `passNew` run emitted, entry by entry, for the pending
keys not consumed by the first loop. -/
theorem passNew_char {w w' : World} {pending : FileTree} {added : List String}
    {us : List TreeEntry} (h : passNew w pending added = (.ok us, w')) :
    List.Forall₂ newEntryRel
      (pending.filter fun kv => !(added.any fun a => a = kv.1)) us := by
  induction pending generalizing w w' us with
  | nil =>
    rw [passNew_nil] at h
    simp only [Prod.mk.injEq, Except.ok.injEq] at h
    rw [← h.1]
    simp
  | cons kv rest ih =>
    rcases kv with ⟨k, n⟩
    cases ha : added.any (fun a => a = k) with
    | true =>
      rw [passNew_cons_skip _ _ _ ha] at h
      have := ih h
      simpa [List.filter_cons, ha] using this
    | false =>
      cases n with
      | file s =>
        rw [passNew_cons_file _ _ _ ha] at h
        rcases hr : passNew w rest added with ⟨res, w1⟩
        rw [hr] at h
        cases res with
        | error e => cases h
        | ok us1 =>
          simp only [Prod.mk.injEq, Except.ok.injEq] at h
          rw [← h.1]
          rw [List.filter_cons]
          simp only [ha]
          exact List.Forall₂.cons rfl (ih hr)
      | dir cs =>
        rw [passNew_cons_dir _ _ _ ha] at h
        rcases hu : updateTree w none k cs with ⟨res, w1⟩
        rw [hu] at h
        cases res with
        | error e => cases h
        | ok r =>
          dsimp only at h
          rcases hr : passNew w1 rest added with ⟨res2, w2⟩
          rw [hr] at h
          cases res2 with
          | error e => cases h
          | ok us1 =>
            simp only [Prod.mk.injEq, Except.ok.injEq] at h
            rw [← h.1]
            rw [List.filter_cons]
            simp only [ha]
            refine List.Forall₂.cons ?_ (ih hr)
            rcases updateTree_ok_shape hu with ⟨hp, hm, ht, _⟩
            exact ⟨by simp [toEntry, hp], by simp [toEntry, hm],
                   by simp [toEntry, ht], w, w1, r, hu, rfl⟩

/-- What a successful `passExisting` run emitted: one update per existing
entry whose segment the pending object hits (in entry order), and exactly
those segments marked consumed. -/
theorem passExisting_char {w w' : World} {entries : List TreeEntry} {ft : FileTree}
    {us : List TreeEntry} {ad : List String}
    (h : passExisting w entries ft = (.ok (us, ad), w')) :
    ad = (entries.filter fun e => (getKey ft e.path).isSome).map TreeEntry.path ∧
    List.Forall₂ (exRel ft) (entries.filter fun e => (getKey ft e.path).isSome) us := by
  induction entries generalizing w w' us ad with
  | nil =>
    rw [passExisting_nil] at h
    simp only [Prod.mk.injEq, Except.ok.injEq] at h
    obtain ⟨⟨h1, h2⟩, _⟩ := h
    rw [← h1, ← h2]
    simp
  | cons e rest ih =>
    cases hk : getKey ft e.path with
    | none =>
      rw [passExisting_cons_none _ _ hk] at h
      have := ih h
      simpa [List.filter_cons, hk] using this
    | some n =>
      cases n with
      | file s =>
        rw [passExisting_cons_file _ _ hk] at h
        rcases hr : passExisting w rest ft with ⟨res, w1⟩
        rw [hr] at h
        cases res with
        | error err => cases h
        | ok pr =>
          rcases pr with ⟨us1, ad1⟩
          simp only [Prod.mk.injEq, Except.ok.injEq] at h
          obtain ⟨⟨h1, h2⟩, _⟩ := h
          rcases ih hr with ⟨iha, ihf⟩
          rw [← h1, ← h2]
          rw [List.filter_cons]
          simp only [hk, Option.isSome_some, if_pos]
          constructor
          · simp [iha]
          · refine List.Forall₂.cons ?_ ihf
            rw [exRel, hk]
      | dir cs =>
        rw [passExisting_cons_dir _ _ hk] at h
        rcases hu : updateTree w (some e.sha) e.path cs with ⟨res, w1⟩
        rw [hu] at h
        cases res with
        | error err => cases h
        | ok r =>
          dsimp only at h
          rcases hr : passExisting w1 rest ft with ⟨res2, w2⟩
          rw [hr] at h
          cases res2 with
          | error err => cases h
          | ok pr =>
            rcases pr with ⟨us1, ad1⟩
            simp only [Prod.mk.injEq, Except.ok.injEq] at h
            obtain ⟨⟨h1, h2⟩, _⟩ := h
            rcases ih hr with ⟨iha, ihf⟩
            rw [← h1, ← h2]
            rw [List.filter_cons]
            simp only [hk, Option.isSome_some, if_pos]
            constructor
            · simp [iha]
            · refine List.Forall₂.cons ?_ ihf
              rw [exRel, hk]
              rcases updateTree_ok_shape hu with ⟨hp, hm, ht, _⟩
              exact ⟨by simp [toEntry, hp], by simp [toEntry, hm],
                     by simp [toEntry, ht], w, w1, r, hu, rfl⟩

/-- Both relations pin the emitted entry's path to the pending key /
existing segment. -/
theorem newEntryRel_path {kv : String × Node} {e : TreeEntry}
    (h : newEntryRel kv e) : e.path = kv.1 := by
  rcases kv with ⟨k, n⟩
  cases n with
  | file s => rw [newEntryRel] at h; rw [h]
  | dir cs => exact h.1

theorem exRel_path {ft : FileTree} {e u : TreeEntry}
    (h : exRel ft e u) : u.path = e.path := by
  rw [exRel] at h
  cases hk : getKey ft e.path with
  | none => rw [hk] at h; cases h
  | some n =>
    rw [hk] at h
    cases n with
    | file s => rw [h]
    | dir cs => exact h.1

theorem forall₂_newEntryRel_paths {l : FileTree} {us : List TreeEntry}
    (h : List.Forall₂ newEntryRel l us) :
    us.map TreeEntry.path = l.map Prod.fst := by
  induction h with
  | nil => rfl
  | cons hrel _ ih => simp [ih, newEntryRel_path hrel]

theorem forall₂_exRel_paths {ft : FileTree} {l us : List TreeEntry}
    (h : List.Forall₂ (exRel ft) l us) :
    us.map TreeEntry.path = l.map TreeEntry.path := by
  induction h with
  | nil => rfl
  | cons hrel _ ih => simp [ih, exRel_path hrel]

/-! ### Entry arithmetic of tree creation -/

/-- Overriding an entry keeps its path slot. -/
theorem applyUpdates_replace_path (upds : List TreeEntry) (e : TreeEntry) :
    (match upds.find? (fun u => u.path = e.path) with
     | some u => u
     | none => e : TreeEntry).path = e.path := by
  cases hf : upds.find? (fun u => u.path = e.path) with
  | none => rfl
  | some u =>
    have := List.find?_some hf
    simpa using this

/-- When no base path meets any update path, the created tree is literally
the base entries followed by the updates. -/
theorem applyUpdates_disjoint {base upds : List TreeEntry}
    (h : ∀ e ∈ base, ∀ u ∈ upds, u.path ≠ e.path) :
    applyUpdates base upds = base ++ upds := by
  rw [applyUpdates]
  have h1 : base.map (fun e =>
      match upds.find? (fun u => u.path = e.path) with
      | some u => u
      | none => e) = base := by
    conv_rhs => rw [← List.map_id base]
    apply List.map_congr_left
    intro e he
    have hf : upds.find? (fun u => u.path = e.path) = none :=
      List.find?_eq_none.mpr (fun u hu => by simpa using h e he u hu)
    simp [hf]
  have h2 : upds.filter (fun u => ¬ base.any (fun e => e.path = u.path)) = upds := by
    apply List.filter_eq_self.mpr
    intro u hu
    have : base.any (fun e => e.path = u.path) = false := by
      apply List.any_eq_false.mpr
      intro e he
      simpa using fun hh => h e he u hu hh.symm
    simp [this]
  rw [h1, h2]

/-- Proper-prefix test on segment lists. -/
def isProperPrefix (p q : List String) : Bool :=
  p.isPrefixOf q && p ≠ q

/-- Does the built tree hold a file leaf at directory path `dirs` and
filename `fname`? -/
def hasLeaf (t : FileTree) (dirs : List String) (fname : String) : Bool :=
  match dirs with
  | [] =>
    match getKey t fname with
    | some (Node.file _) => true
    | _ => false
  | d :: rest =>
    match getKey t d with
    | some (Node.dir cs) => hasLeaf cs rest fname
    | _ => false

/-- No file leaf sits on the directory path `dirs` (so an insertion along it
cannot be swallowed by an existing leaf). -/
def dirsOk (t : FileTree) (dirs : List String) : Bool :=
  match dirs with
  | [] => true
  | d :: rest =>
    match getKey t d with
    | some (Node.file _) => false
    | some (Node.dir cs) => dirsOk cs rest
    | none => true

/-- A complete successful run of `updateTree` when the pending keys are
disjoint from the base entries' paths: the first loop contributes nothing,
the second loop yields `us`, and the created tree holds
`applyUpdates base us`. -/
theorem updateTree_disjoint_run {w : World} {sha : Option String} (p : String)
    {ft : FileTree} {base us : List TreeEntry} {w2 : World}
    (hbase : getTreeE w sha = .ok base)
    (hdisj : ∀ e ∈ base, getKey ft e.path = none)
    (hpn : passNew w ft [] = (.ok us, w2))
    (hflag2 : w2.failTree = false) :
    updateTree w sha p ft =
      (.ok { path := p, mode := "040000", type := "tree",
             sha := freshSha w2.counter, parentSha := sha },
       { w2 with trees := (freshSha w2.counter, applyUpdates base us) :: w2.trees,
                 counter := w2.counter + 1 }) := by
  rw [updateTree_eq, hbase]
  have hpe : passExisting w base ft = (.ok ([], []), w) := passExisting_disjoint w hdisj
  simp only [collectUpdates, hpe]
  rw [hpn]
  simp only [List.nil_append]
  simp only [createTreeE, hflag2]
  simp only [if_neg (by simp : ¬ (false = true))]

/-- Decomposition of a successful `collectUpdates` run into the two loops. -/
theorem collectUpdates_ok_decomp {w w2 : World} {base : List TreeEntry}
    {ft : FileTree} {upds : List TreeEntry}
    (h : collectUpdates w base ft = (.ok upds, w2)) :
    ∃ us1 ad w1 us2,
      passExisting w base ft = (.ok (us1, ad), w1) ∧
      passNew w1 ft ad = (.ok us2, w2) ∧
      upds = us1 ++ us2 := by
  rw [collectUpdates] at h
  rcases hpe : passExisting w base ft with ⟨res1, w1⟩
  rw [hpe] at h
  cases res1 with
  | error e => cases h
  | ok pr =>
    rcases pr with ⟨us1, ad⟩
    dsimp only at h
    rcases hpn : passNew w1 ft ad with ⟨res2, w2'⟩
    rw [hpn] at h
    cases res2 with
    | error e => cases h
    | ok us2 =>
      simp only [Prod.mk.injEq, Except.ok.injEq] at h
      refine ⟨us1, ad, w1, us2, rfl, ?_, h.1.symm⟩
      rw [← h.2]
      exact hpn

/-- A path-unique entry is the only survivor of a path filter. -/
theorem filter_single_of_nodup {l : List TreeEntry} {e0 : TreeEntry} {p : String}
    (hn : (l.map TreeEntry.path).Nodup) (hm : e0 ∈ l) (hp : e0.path = p) :
    l.filter (fun x => x.path = p) = [e0] := by
  induction l with
  | nil => cases hm
  | cons a rest ih =>
    simp only [List.map_cons, List.nodup_cons] at hn
    rcases List.mem_cons.mp hm with h1 | h1
    · subst h1
      have hrest : rest.filter (fun x => x.path = p) = [] := by
        apply List.filter_eq_nil_iff.mpr
        intro x hx
        simp only [decide_eq_true_eq]
        intro hxp
        exact hn.1 (by rw [hp, ← hxp]; exact List.mem_map_of_mem _ hx)
      rw [List.filter_cons, if_pos (by simp [hp]), hrest]
    · have hane : a.path ≠ p := by
        intro ha
        exact hn.1 (by rw [ha, ← hp]; exact List.mem_map_of_mem _ h1)
      rw [List.filter_cons, if_neg (by simp [hane])]
      exact ih hn.2 h1

/-- A singleton filter pins down `find?`. -/
theorem filter_eq_single_find? {l : List TreeEntry} {a : TreeEntry}
    {q : TreeEntry → Bool} (h : l.filter q = [a]) : l.find? q = some a := by
  induction l with
  | nil => cases h
  | cons x rest ih =>
    rw [List.filter_cons] at h
    by_cases hq : q x
    · rw [if_pos hq] at h
      simp only [List.cons.injEq] at h
      rw [List.find?, hq, h.1]
    · rw [if_neg hq] at h
      rw [List.find?]
      simp only [Bool.not_eq_true] at hq
      rw [hq]
      exact ih h

/-- Filtering by a path commutes with a `Forall₂` that preserves paths. -/
theorem forall₂_exRel_filter {ft : FileTree} {l us : List TreeEntry} (p : String)
    (h : List.Forall₂ (exRel ft) l us) :
    List.Forall₂ (exRel ft)
      (l.filter (fun e => e.path = p)) (us.filter (fun u => u.path = p)) := by
  induction h with
  | nil => simp
  | cons hrel htail ih =>
    rename_i e u l' us'
    have hpath := exRel_path hrel
    rw [List.filter_cons, List.filter_cons]
    by_cases hp : e.path = p
    · rw [if_pos (by simp [hp]), if_pos (by simp [hpath, hp])]
      exact List.Forall₂.cons hrel ih
    · rw [if_neg (by simp [hp]), if_neg (by simp [hpath, hp])]
      exact ih

/-- Emitted new entries never sit at an already-consumed path. -/
theorem forall₂_newEntryRel_filter_nil {l : FileTree} {us : List TreeEntry} {p : String}
    (h : List.Forall₂ newEntryRel l us) (hl : ∀ kv ∈ l, kv.1 ≠ p) :
    us.filter (fun u => u.path = p) = [] := by
  induction h with
  | nil => rfl
  | cons hrel htail ih =>
    rename_i kv u l' us'
    have hpath := newEntryRel_path hrel
    rw [List.filter_cons]
    rw [if_neg (by simp [hpath]; exact hl kv (by simp))]
    exact ih (fun kv' hkv' => hl kv' (by simp [hkv']))

/-- The path filter of the created tree reduces to the path filter of the
updates when the path exists in the base. -/
theorem applyUpdates_filter_path {base upds : List TreeEntry} {p : String} {u0 : TreeEntry}
    (hn : (base.map TreeEntry.path).Nodup)
    (hbp : p ∈ base.map TreeEntry.path)
    (hu : upds.filter (fun x => x.path = p) = [u0]) :
    (applyUpdates base upds).filter (fun x => x.path = p) = [u0] := by
  have hu0p : u0.path = p := by
    have : u0 ∈ upds.filter (fun x => x.path = p) := by rw [hu]; simp
    have := List.of_mem_filter this
    simpa using this
  have hfind : upds.find? (fun x => x.path = p) = some u0 := filter_eq_single_find? hu
  rcases List.mem_map.mp hbp with ⟨e0, he0, he0p⟩
  rw [applyUpdates, List.filter_append]
  have h2 : (upds.filter (fun u => ¬ base.any (fun e => e.path = u.path))).filter
      (fun x => x.path = p) = [] := by
    apply List.filter_eq_nil_iff.mpr
    intro x hx
    simp only [decide_eq_true_eq]
    intro hxp
    have hxmem := List.of_mem_filter hx
    have : base.any (fun e => e.path = x.path) = true := by
      apply List.any_eq_true.mpr
      exact ⟨e0, he0, by simp [he0p, hxp]⟩
    simp [this] at hxmem
  rw [h2, List.append_nil]
  rw [List.filter_map]
  have hcong : base.filter ((fun x => x.path = p) ∘ (fun e =>
      match upds.find? (fun u => u.path = e.path) with
      | some u => u
      | none => e)) = base.filter (fun e => e.path = p) := by
    apply List.filter_congr
    intro e he
    simp only [Function.comp_apply]
    rw [applyUpdates_replace_path upds e]
  rw [hcong, filter_single_of_nodup hn he0 he0p]
  simp only [List.map_cons, List.map_nil]
  rw [he0p, hfind]

/-! ### Claims -/

/-- C1: for every existing base tree `T` (the entries fetched for `sha`) and
every pending change set whose path segments are disjoint from `T`'s entry
paths, the merge succeeds and the tree it persists contains all of `T`'s
entries unchanged (as a prefix, in order) plus exactly one new entry per
pending key; no entry of `T` absent from the pending set is dropped. -/
theorem C1_merge_preserves_disjoint_base {w : World} {sha : Option String}
    {p : String} {ft : FileTree} {base : List TreeEntry}
    (hbase : getTreeE w sha = .ok base)
    (hdisj : ∀ e ∈ base, getKey ft e.path = none)
    (hflag : w.failTree = false)
    (hnodup : (ft.map Prod.fst).Nodup) :
    ∃ r w' newOnes,
      updateTree w sha p ft = (.ok r, w') ∧
      lookupSha w'.trees r.sha = some (base ++ newOnes) ∧
      newOnes.map TreeEntry.path = ft.map Prod.fst ∧
      (newOnes.map TreeEntry.path).Nodup := by
  rcases passNew_success w ft [] hflag with ⟨us, w2, hpn⟩
  have hq := (treeQuiet_main (sizeOf ft)).2.2 w ft [] (le_refl _)
  rw [hpn] at hq
  have hflag2 : w2.failTree = false := by rw [hq.failTree_eq]; exact hflag
  have hrun := updateTree_disjoint_run p hbase hdisj hpn hflag2
  have hchar := passNew_char hpn
  have hfilter : (ft.filter fun kv => !((([] : List String)).any fun a => a = kv.1)) = ft := by
    simp
  rw [hfilter] at hchar
  have hpaths : us.map TreeEntry.path = ft.map Prod.fst :=
    forall₂_newEntryRel_paths hchar
  have happ : applyUpdates base us = base ++ us := by
    apply applyUpdates_disjoint
    intro e he u hu
    have h1 : e.path ∉ ft.map Prod.fst := getKey_eq_none.mp (hdisj e he)
    have h2 : u.path ∈ ft.map Prod.fst := by
      rw [← hpaths]
      exact List.mem_map_of_mem _ hu
    intro hh
    rw [hh] at h2
    exact h1 h2
  refine ⟨_, _, us, hrun, ?_, hpaths, by rw [hpaths]; exact hnodup⟩
  rw [← happ]
  exact lookupSha_cons_self _ _ _

/-- Closed instance for C1: a base tree with an entry `"keep"` and a pending
set adding `"new"`. -/
theorem C1_merge_preserves_disjoint_base_witness :
    (getTreeE
        { trees := [("t0", [⟨"keep", "100644", "blob", "k"⟩])], blobs := [], commits := [],
          head := "h0", counter := 0, failUpload := false, failTree := false,
          failCommit := false, raceHead := none } (some "t0") =
      .ok [⟨"keep", "100644", "blob", "k"⟩]) ∧
    ∃ r w' newOnes,
      updateTree
          { trees := [("t0", [⟨"keep", "100644", "blob", "k"⟩])], blobs := [], commits := [],
            head := "h0", counter := 0, failUpload := false, failTree := false,
            failCommit := false, raceHead := none }
          (some "t0") "/" [("new", Node.file "n")] = (.ok r, w') ∧
      lookupSha w'.trees r.sha =
        some ([⟨"keep", "100644", "blob", "k"⟩] ++ newOnes) ∧
      newOnes.map TreeEntry.path = [("new", Node.file "n")].map Prod.fst ∧
      (newOnes.map TreeEntry.path).Nodup := by
  constructor
  · simp [getTreeE, lookupSha]
  · exact C1_merge_preserves_disjoint_base
      (by simp [getTreeE, lookupSha])
      (by intro e he; simp at he; rw [he]; simp [getKey])
      rfl
      (by simp)

/-- A `Forall₂` from a singleton pins the other list to a singleton. -/
theorem forall₂_singleton_right {α β : Type} {R : α → β → Prop} {e : α} {us : List β}
    (h : List.Forall₂ R [e] us) : ∃ u, us = [u] ∧ R e u := by
  cases h with
  | cons hrel htail =>
    cases htail
    exact ⟨_, rfl, hrel⟩

/-- C4: when the existing tree has an entry at segment `p` and the pending
object holds a file there, the persisted merged tree's (unique) entry at `p`
carries the pending file's uploaded blob id with the original entry's mode
and type unchanged. -/
theorem C4_override_keeps_mode_type {w w' : World} {sha : Option String}
    {q p s : String} {ft : FileTree} {base : List TreeEntry} {e0 : TreeEntry}
    {r : TreeResult}
    (hbase : getTreeE w sha = .ok base)
    (hnodup : (base.map TreeEntry.path).Nodup)
    (hmem : e0 ∈ base) (hp : e0.path = p)
    (hft : getKey ft p = some (Node.file s))
    (hrun : updateTree w sha q ft = (.ok r, w')) :
    ∃ es, lookupSha w'.trees r.sha = some es ∧
      es.filter (fun x => x.path = p) = [⟨p, e0.mode, e0.type, s⟩] := by
  rcases updateTree_ok_lookup hrun with ⟨base', upds, w2, hg', hc, hlk⟩
  have hbb : base' = base := by
    rw [hbase] at hg'
    injection hg' with hgg
    exact hgg.symm
  rw [hbb] at hc hlk
  rcases collectUpdates_ok_decomp hc with ⟨us1, ad, w1, us2, hpe, hpn, hupds⟩
  rcases passExisting_char hpe with ⟨had, hf1⟩
  have hLbmem : e0 ∈ base.filter (fun e => (getKey ft e.path).isSome) :=
    List.mem_filter.mpr ⟨hmem, by simp [hp, hft]⟩
  have hLbnodup :
      (((base.filter (fun e => (getKey ft e.path).isSome)).map TreeEntry.path)).Nodup :=
    hnodup.sublist ((List.filter_sublist base).map TreeEntry.path)
  have hfLb : (base.filter (fun e => (getKey ft e.path).isSome)).filter
      (fun x => x.path = p) = [e0] :=
    filter_single_of_nodup hLbnodup hLbmem hp
  have hf1p := forall₂_exRel_filter p hf1
  rw [hfLb] at hf1p
  rcases forall₂_singleton_right hf1p with ⟨u, hufil, hrel⟩
  have hu : u = ⟨p, e0.mode, e0.type, s⟩ := by
    rw [exRel] at hrel
    rw [hp, hft] at hrel
    simpa [hp] using hrel
  have hpin : p ∈ ad := by
    rw [had, ← hp]
    exact List.mem_map_of_mem _ hLbmem
  have hus2 : us2.filter (fun x => x.path = p) = [] := by
    apply forall₂_newEntryRel_filter_nil (passNew_char hpn)
    intro kv hkv
    have hpred := List.of_mem_filter hkv
    have h2 : ∀ a ∈ ad, ¬ a = kv.1 := by simpa using hpred
    intro hkp
    exact h2 p hpin hkp.symm
  have hfilt : upds.filter (fun x => x.path = p) = [u] := by
    rw [hupds, List.filter_append, hufil, hus2, List.append_nil]
  refine ⟨applyUpdates base upds, hlk, ?_⟩
  rw [applyUpdates_filter_path hnodup (by rw [← hp]; exact List.mem_map_of_mem _ hmem) hfilt]
  rw [hu]

/-- Closed instance for C4: the pending file at `"a"` overrides the existing
entry's blob while keeping its executable mode `"100755"`. -/
theorem C4_override_keeps_mode_type_witness :
    ∃ r w',
      updateTree
        { trees := [("t1", [⟨"a", "100755", "blob", "old"⟩])], blobs := [], commits := [],
          head := "h0", counter := 0, failUpload := false, failTree := false,
          failCommit := false, raceHead := none }
        (some "t1") "/" [("a", Node.file "n")] = (.ok r, w') ∧
      ∃ es, lookupSha w'.trees r.sha = some es ∧
        es.filter (fun x => x.path = "a") = [⟨"a", "100755", "blob", "n"⟩] := by
  have hrun : updateTree
      { trees := [("t1", [⟨"a", "100755", "blob", "old"⟩])], blobs := [], commits := [],
        head := "h0", counter := 0, failUpload := false, failTree := false,
        failCommit := false, raceHead := none }
      (some "t1") "/" [("a", Node.file "n")] =
      (.ok ⟨"/", "040000", "tree", "new-0", some "t1"⟩,
       { trees := [("new-0", [⟨"a", "100755", "blob", "n"⟩]),
                   ("t1", [⟨"a", "100755", "blob", "old"⟩])],
         blobs := [], commits := [], head := "h0", counter := 1,
         failUpload := false, failTree := false, failCommit := false,
         raceHead := none }) := by
    simp [updateTree_eq, collectUpdates, passExisting_nil, passExisting_cons_none,
          passExisting_cons_file, passExisting_cons_dir, passNew_nil, passNew_cons_skip,
          passNew_cons_file, passNew_cons_dir, getTreeE, createTreeE, getKey, lookupSha,
          applyUpdates, freshSha]
    rfl
  refine ⟨_, _, hrun, ?_⟩
  have hmem0 : (⟨"a", "100755", "blob", "old"⟩ : TreeEntry) ∈
      [(⟨"a", "100755", "blob", "old"⟩ : TreeEntry)] := by simp
  have hft0 : getKey [("a", Node.file "n")] "a" = some (Node.file "n") := by
    simp [getKey]
  exact C4_override_keeps_mode_type
    (by simp [getTreeE, lookupSha]) (by simp) hmem0 rfl hft0 hrun

/-- A minimal concrete world for the closed instances. -/
def w0ex : World :=
  { trees := [], blobs := [], commits := [], head := "h0", counter := 0,
    failUpload := false, failTree := false, failCommit := false, raceHead := none }

/-- C5: for every pending key not consumed by the first loop, a successful
second loop emits, in order: for a file, the entry
`{path: key, mode: "100644", type: "blob", sha: its uploaded blob id}`; for
a subdirectory, the entry produced by a recursive `updateTree` call with a
`null` base tree id, with mode `"040000"`, type `"tree"` and the resulting
tree's id.  A `null` base tree id resolves to an empty entry list
identically in every store state — no remote read. -/
theorem C5_new_keys_emission {w w' : World} {pending : FileTree}
    {added : List String} {us : List TreeEntry}
    (h : passNew w pending added = (.ok us, w')) :
    List.Forall₂ newEntryRel
      (pending.filter fun kv => !(added.any fun a => a = kv.1)) us ∧
    ∀ w₀ : World, getTreeE w₀ none = .ok [] :=
  ⟨passNew_char h, fun _ => rfl⟩

/-- Closed instance for C5: one new file and one new directory. -/
theorem C5_new_keys_emission_witness :
    ∃ us w',
      passNew w0ex [("f", Node.file "s1"), ("d", Node.dir [("x", Node.file "s2")])] [] =
        (.ok us, w') ∧
      (List.Forall₂ newEntryRel
        (([("f", Node.file "s1"), ("d", Node.dir [("x", Node.file "s2")])].filter
          fun kv => !((([] : List String)).any fun a => a = kv.1))) us ∧
      ∀ w₀ : World, getTreeE w₀ none = .ok []) := by
  rcases passNew_success w0ex
      [("f", Node.file "s1"), ("d", Node.dir [("x", Node.file "s2")])] [] rfl with
    ⟨us, w', hr⟩
  exact ⟨us, w', hr, C5_new_keys_emission hr⟩

/-- C9: when the base tree's entry paths are pairwise distinct and the
pending object's keys are pairwise distinct (a JS object cannot repeat
keys), the update list submitted to tree creation has pairwise distinct
paths: a pending key consumed against an existing entry is marked `added`
and never emitted a second time by the new-entry loop. -/
theorem C9_submitted_paths_nodup {w w2 : World} {base upds : List TreeEntry}
    {ft : FileTree}
    (hb : (base.map TreeEntry.path).Nodup)
    (hf : (ft.map Prod.fst).Nodup)
    (h : collectUpdates w base ft = (.ok upds, w2)) :
    (upds.map TreeEntry.path).Nodup := by
  rcases collectUpdates_ok_decomp h with ⟨us1, ad, w1, us2, hpe, hpn, hupds⟩
  rcases passExisting_char hpe with ⟨had, hf1⟩
  have hus1 : us1.map TreeEntry.path =
      (base.filter (fun e => (getKey ft e.path).isSome)).map TreeEntry.path :=
    forall₂_exRel_paths hf1
  have hus2 : us2.map TreeEntry.path =
      (ft.filter (fun kv => !(ad.any fun a => a = kv.1))).map Prod.fst :=
    forall₂_newEntryRel_paths (passNew_char hpn)
  have hn1 : (us1.map TreeEntry.path).Nodup := by
    rw [hus1]
    exact hb.sublist ((List.filter_sublist base).map TreeEntry.path)
  have hn2 : (us2.map TreeEntry.path).Nodup := by
    rw [hus2]
    exact hf.sublist ((List.filter_sublist ft).map Prod.fst)
  have hdisj : (us1.map TreeEntry.path).Disjoint (us2.map TreeEntry.path) := by
    intro a ha1 ha2
    rw [hus1, ← had] at ha1
    rw [hus2] at ha2
    rcases List.mem_map.mp ha2 with ⟨kv, hkv, hkva⟩
    have hpred := List.of_mem_filter hkv
    have h2 : ∀ x ∈ ad, ¬ x = kv.1 := by simpa using hpred
    exact h2 a ha1 (by rw [hkva])
  rw [hupds, List.map_append]
  exact hn1.append hn2 hdisj

/-- Closed instance for C9: pending `{"a", "b"}` against a base holding
`"a"`. -/
theorem C9_submitted_paths_nodup_witness :
    ∃ upds w2,
      collectUpdates w0ex [⟨"a", "100644", "blob", "old"⟩]
          [("a", Node.file "n1"), ("b", Node.file "n2")] = (.ok upds, w2) ∧
      (upds.map TreeEntry.path).Nodup := by
  have hcol : collectUpdates w0ex [⟨"a", "100644", "blob", "old"⟩]
      [("a", Node.file "n1"), ("b", Node.file "n2")] =
      (.ok [⟨"a", "100644", "blob", "n1"⟩, ⟨"b", "100644", "blob", "n2"⟩], w0ex) := by
    simp [collectUpdates, passExisting_nil, passExisting_cons_none,
          passExisting_cons_file, passExisting_cons_dir, passNew_nil, passNew_cons_skip,
          passNew_cons_file, passNew_cons_dir, getKey]
  exact ⟨_, _, hcol, C9_submitted_paths_nodup (by simp) (by simp) hcol⟩

/-- Entries with equal paths coincide in a path-nodup list. -/
theorem eq_of_mem_of_path_eq {l : List TreeEntry} {u u' : TreeEntry}
    (hn : (l.map TreeEntry.path).Nodup) (hu : u ∈ l) (hu' : u' ∈ l)
    (hp : u.path = u'.path) : u = u' :=
  List.inj_on_of_nodup_map hn hu hu' hp

/-- The concrete store for the C3 instance: one base tree `t0` holding only
the untouched entry `"keep"`. -/
def wC3 : World :=
  { trees := [("t0", [⟨"keep", "100644", "blob", "k"⟩])], blobs := [], commits := [],
    head := "h0", counter := 0, failUpload := false, failTree := false,
    failCommit := false, raceHead := none }

/-- C3 counterexample: merging the pending set `{"new"}` into the base tree
`t0 = {"keep"}` submits the single update entry `"new"`; created *with* the
`base_tree` hint the tree keeps `"keep"`, while the hint-less creation (the
spec's "purely an optimization" reading, `createTreeEntriesNoHint`) would
hold only `"new"` — the entry sets differ, so the hint is not an
optimization. -/
theorem C3_base_hint_counterexample :
    collectUpdates wC3 [⟨"keep", "100644", "blob", "k"⟩] [("new", Node.file "n")] =
      (.ok [⟨"new", "100644", "blob", "n"⟩], wC3) ∧
    (∃ r w',
      updateTree wC3 (some "t0") "/" [("new", Node.file "n")] = (.ok r, w') ∧
      lookupSha w'.trees r.sha =
        some [⟨"keep", "100644", "blob", "k"⟩, ⟨"new", "100644", "blob", "n"⟩]) ∧
    (⟨"keep", "100644", "blob", "k"⟩ : TreeEntry) ∈
      applyUpdates [⟨"keep", "100644", "blob", "k"⟩] [⟨"new", "100644", "blob", "n"⟩] ∧
    (⟨"keep", "100644", "blob", "k"⟩ : TreeEntry) ∉
      createTreeEntriesNoHint [⟨"new", "100644", "blob", "n"⟩] := by
  have hrun : updateTree wC3 (some "t0") "/" [("new", Node.file "n")] =
      (.ok ⟨"/", "040000", "tree", "new-0", some "t0"⟩,
       { trees := [("new-0", [⟨"keep", "100644", "blob", "k"⟩, ⟨"new", "100644", "blob", "n"⟩]),
                   ("t0", [⟨"keep", "100644", "blob", "k"⟩])],
         blobs := [], commits := [], head := "h0", counter := 1,
         failUpload := false, failTree := false, failCommit := false,
         raceHead := none }) := by
    simp [updateTree_eq, collectUpdates, passExisting_nil, passExisting_cons_none,
          passExisting_cons_file, passExisting_cons_dir, passNew_nil, passNew_cons_skip,
          passNew_cons_file, passNew_cons_dir, getTreeE, createTreeE, getKey, lookupSha,
          applyUpdates, freshSha, wC3]
    rfl
  refine ⟨?_, ⟨_, _, hrun, ?_⟩, ?_, ?_⟩
  · simp [collectUpdates, passExisting_nil, passExisting_cons_none,
          passExisting_cons_file, passExisting_cons_dir, passNew_nil, passNew_cons_skip,
          passNew_cons_file, passNew_cons_dir, getKey, wC3]
  · simp [lookupSha]
  · simp [applyUpdates]
  · simp [createTreeEntriesNoHint]

/-- C3 (amended): the `base_tree` hint is load-bearing, not an optimization.
The update list submitted is computed before the request either way, but
tree creation with the hint persists `applyUpdates base upds` — the
untouched base entries plus the updates — while without the hint exactly
the submitted updates survive; the two coincide as entry sets precisely
when every base entry's path occurs among the updates (in particular they
differ whenever some base entry is untouched by the pending set). -/
theorem C3_base_hint_required :
    (∀ w base upds sha w', createTreeE w base upds = (.ok sha, w') →
        lookupSha w'.trees sha = some (applyUpdates base upds)) ∧
    (∀ (base upds : List TreeEntry),
        (base.map TreeEntry.path).Nodup → (upds.map TreeEntry.path).Nodup →
        (List.Perm (applyUpdates base upds) (createTreeEntriesNoHint upds) ↔
          ∀ e ∈ base, e.path ∈ upds.map TreeEntry.path)) := by
  constructor
  · intro w base upds sha w' h
    rw [createTreeE] at h
    split at h
    · cases h
    · simp only [Prod.mk.injEq, Except.ok.injEq] at h
      rw [← h.2, ← h.1]
      exact lookupSha_cons_self _ _ _
  · intro base upds hb hu
    rw [createTreeEntriesNoHint]
    constructor
    · intro hperm e he
      by_contra hne
      have hfind : upds.find? (fun u => u.path = e.path) = none :=
        List.find?_eq_none.mpr (fun u hu' hdec => by
          have : u.path = e.path := by simpa using hdec
          exact hne (this ▸ List.mem_map_of_mem _ hu'))
      have hmem : e ∈ applyUpdates base upds := by
        rw [applyUpdates]
        apply List.mem_append_left
        exact List.mem_map.mpr ⟨e, he, by rw [hfind]⟩
      have := hperm.mem_iff.mp hmem
      exact hne (List.mem_map_of_mem _ this)
    · intro hcov
      have hreplace : ∀ e ∈ base,
          (match upds.find? (fun u => u.path = e.path) with
           | some u => u
           | none => e : TreeEntry) ∈ upds ∧
          (match upds.find? (fun u => u.path = e.path) with
           | some u => u
           | none => e : TreeEntry).path = e.path := by
        intro e he
        have hsome : (upds.find? (fun u => u.path = e.path)).isSome := by
          apply List.find?_isSome.mpr
          rcases List.mem_map.mp (hcov e he) with ⟨u, hu', hup⟩
          exact ⟨u, hu', by simp [hup]⟩
        rcases Option.isSome_iff_exists.mp hsome with ⟨u, hufind⟩
        rw [hufind]
        exact ⟨List.mem_of_find?_eq_some hufind, by simpa using List.find?_some hufind⟩
      have hnodup1 : (applyUpdates base upds).Nodup := by
        apply List.Nodup.of_map TreeEntry.path
        rw [applyUpdates, List.map_append]
        have hmapped : (base.map (fun e =>
            match upds.find? (fun u => u.path = e.path) with
            | some u => u
            | none => e)).map TreeEntry.path = base.map TreeEntry.path := by
          rw [List.map_map]
          apply List.map_congr_left
          intro e _
          exact applyUpdates_replace_path upds e
        rw [hmapped]
        apply hb.append
          (hu.sublist ((List.filter_sublist upds).map TreeEntry.path))
        intro a ha1 ha2
        rcases List.mem_map.mp ha2 with ⟨u, hu', hua⟩
        have hmemf := List.of_mem_filter hu'
        have : ∀ x ∈ base, ¬ x.path = u.path := by simpa using hmemf
        rcases List.mem_map.mp ha1 with ⟨e, he, hea⟩
        exact this e he (by rw [hea, hua])
      have hnodup2 : upds.Nodup := List.Nodup.of_map TreeEntry.path hu
      rw [List.perm_ext_iff_of_nodup hnodup1 hnodup2]
      intro u
      constructor
      · intro hmem
        rw [applyUpdates] at hmem
        rcases List.mem_append.mp hmem with h1 | h1
        · rcases List.mem_map.mp h1 with ⟨e, he, heu⟩
          rw [← heu]
          exact (hreplace e he).1
        · exact List.mem_of_mem_filter h1
      · intro hmem
        rw [applyUpdates]
        by_cases hbp : u.path ∈ base.map TreeEntry.path
        · apply List.mem_append_left
          rcases List.mem_map.mp hbp with ⟨e, he, hep⟩
          rcases hreplace e he with ⟨hrep1, hrep2⟩
          have : (match upds.find? (fun x => x.path = e.path) with
              | some x => x
              | none => e : TreeEntry) = u :=
            eq_of_mem_of_path_eq hu hrep1 hmem (by rw [hrep2, hep])
          rw [← this]
          exact List.mem_map.mpr ⟨e, he, rfl⟩
        · apply List.mem_append_right
          apply List.mem_filter.mpr
          refine ⟨hmem, ?_⟩
          simp only [decide_eq_true_eq]
          intro hany
          have hany2 : ∃ x ∈ base, x.path = u.path := by simpa using hany
          rcases hany2 with ⟨e, he, hep⟩
          apply hbp
          rw [← hep]
          exact List.mem_map_of_mem _ he

/-- Closed instance for the amended C3. -/
theorem C3_base_hint_required_witness :
    (createTreeE w0ex [⟨"keep", "100644", "blob", "k"⟩] [⟨"new", "100644", "blob", "n"⟩] =
      (.ok "new-0",
       { trees := [("new-0",
           applyUpdates [⟨"keep", "100644", "blob", "k"⟩] [⟨"new", "100644", "blob", "n"⟩])],
         blobs := [], commits := [], head := "h0", counter := 1,
         failUpload := false, failTree := false, failCommit := false,
         raceHead := none })) ∧
    lookupSha
      (({ trees := [("new-0",
           applyUpdates [⟨"keep", "100644", "blob", "k"⟩] [⟨"new", "100644", "blob", "n"⟩])],
          blobs := [], commits := [], head := "h0", counter := 1,
          failUpload := false, failTree := false, failCommit := false,
          raceHead := none } : World)).trees "new-0" =
      some (applyUpdates [⟨"keep", "100644", "blob", "k"⟩] [⟨"new", "100644", "blob", "n"⟩]) ∧
    (List.Perm
        (applyUpdates [⟨"keep", "100644", "blob", "k"⟩] [⟨"new", "100644", "blob", "n"⟩])
        (createTreeEntriesNoHint [⟨"new", "100644", "blob", "n"⟩]) ↔
      ∀ e ∈ [(⟨"keep", "100644", "blob", "k"⟩ : TreeEntry)],
        e.path ∈ ([(⟨"new", "100644", "blob", "n"⟩ : TreeEntry)]).map TreeEntry.path) := by
  have hcr : createTreeE w0ex [⟨"keep", "100644", "blob", "k"⟩]
      [⟨"new", "100644", "blob", "n"⟩] =
      (.ok "new-0",
       { trees := [("new-0",
           applyUpdates [⟨"keep", "100644", "blob", "k"⟩] [⟨"new", "100644", "blob", "n"⟩])],
         blobs := [], commits := [], head := "h0", counter := 1,
         failUpload := false, failTree := false, failCommit := false,
         raceHead := none }) := by
    simp [createTreeE, freshSha, w0ex]
    rfl
  exact ⟨hcr, C3_base_hint_required.1 _ _ _ _ _ hcr,
    C3_base_hint_required.2 _ _ (by simp) (by simp)⟩

/-! ### The orchestrator -/

/-- The upload/build loop touches only the blob store and the counter. -/
def UploadQuiet (w w' : World) : Prop :=
  w'.trees = w.trees ∧ w'.commits = w.commits ∧ w'.head = w.head ∧
  w'.failUpload = w.failUpload ∧ w'.failTree = w.failTree ∧
  w'.failCommit = w.failCommit ∧ w'.raceHead = w.raceHead

theorem uploadQuiet_refl (w : World) : UploadQuiet w w :=
  ⟨rfl, rfl, rfl, rfl, rfl, rfl, rfl⟩

theorem uploadStep_quiet (w : World) (f : PendingFile) :
    UploadQuiet w (uploadStep w f).2 := by
  rw [uploadStep]
  by_cases h1 : f.upload
  · simp only [if_pos h1]
    exact uploadQuiet_refl w
  · simp only [if_neg h1]
    by_cases h2 : w.failUpload
    · simp only [if_pos h2]
      exact uploadQuiet_refl w
    · simp only [if_neg h2]
      exact ⟨rfl, rfl, rfl, rfl, rfl, rfl, rfl⟩

theorem uploadQuiet_trans {w1 w2 w3 : World}
    (h1 : UploadQuiet w1 w2) (h2 : UploadQuiet w2 w3) : UploadQuiet w1 w3 := by
  obtain ⟨a1, a2, a3, a4, a5, a6, a7⟩ := h1
  obtain ⟨b1, b2, b3, b4, b5, b6, b7⟩ := h2
  exact ⟨by rw [b1, a1], by rw [b2, a2], by rw [b3, a3], by rw [b4, a4],
         by rw [b5, a5], by rw [b6, a6], by rw [b7, a7]⟩

theorem uploadAndBuild_quiet (w : World) (ftacc : FileTree) (files : List PendingFile) :
    UploadQuiet w (uploadAndBuild w ftacc files).2 := by
  induction files generalizing w ftacc with
  | nil => exact uploadQuiet_refl w
  | cons f rest ih =>
    rw [uploadAndBuild]
    by_cases hup : f.uploaded
    · simp only [if_pos hup]
      exact ih w ftacc
    · simp only [if_neg hup]
      have hq1 := uploadStep_quiet w f
      rcases hs : uploadStep w f with ⟨res, w1⟩
      rw [hs] at hq1
      cases res with
      | error e => exact hq1
      | ok f' => exact uploadQuiet_trans hq1 (ih w1 _)

/-- Decomposition of a successful pre-ref pipeline (uploads, branch fetch,
race window, root merge, commit creation). -/
theorem preRef_ok_decomp {w w4 : World} {files : List PendingFile}
    {options : Options} {cSha : String}
    (h : preRef w files options = (.ok cSha, w4)) :
    ∃ ft w1 r w2,
      uploadAndBuild w [] files = (.ok ft, w1) ∧
      updateTree (raceStep w1) (some w1.head) "/" ft = (.ok r, w2) ∧
      w2.failCommit = false ∧
      cSha = freshSha w2.counter ∧
      w4 = { w2 with
        commits := (cSha, ⟨options.message, r.sha, [r.parentSha]⟩) :: w2.commits,
        counter := w2.counter + 1 } := by
  rw [preRef] at h
  rcases hub : uploadAndBuild w [] files with ⟨r1, w1⟩
  rw [hub] at h
  cases r1 with
  | error e => cases h
  | ok ft =>
    dsimp only at h
    rcases hut : updateTree (raceStep w1) (some w1.head) "/" ft with ⟨r2, w2⟩
    rw [hut] at h
    cases r2 with
    | error e => cases h
    | ok r =>
      dsimp only at h
      rw [createCommitE] at h
      split at h
      · cases h
      · rename_i hfc
        simp only [Prod.mk.injEq, Except.ok.injEq] at h
        refine ⟨ft, w1, r, w2, rfl, hut, by simpa using hfc, h.1.symm, ?_⟩
        rw [← h.2, ← h.1]

theorem UploadQuiet.uhead_eq {w w' : World} (h : UploadQuiet w w') : w'.head = w.head :=
  h.2.2.1

theorem UploadQuiet.ucommits_eq {w w' : World} (h : UploadQuiet w w') :
    w'.commits = w.commits := h.2.1

theorem UploadQuiet.uraceHead_eq {w w' : World} (h : UploadQuiet w w') :
    w'.raceHead = w.raceHead := h.2.2.2.2.2.2

/-- C2: the branch ref is written only after the commit object has been
created — on success the final head names a commit present in the store —
and any failure leaves the ref unchanged; when the failure precedes the
final `PATCH` itself (any error other than its non-fast-forward rejection)
the commit store is unchanged too, so no partial commit or partial ref
update is visible.  Stated without the simulated concurrent writer
(`raceHead = none`), the regime of spec §8 P4. -/
theorem C2_atomic_ref_update (w : World) (files : List PendingFile)
    (options : Options) (hrace : w.raceHead = none) :
    (∀ e, (updateFiles w files options).1 = .error e →
        (updateFiles w files options).2.head = w.head ∧
        (e ≠ .notFastForward →
          (updateFiles w files options).2.commits = w.commits)) ∧
    ((updateFiles w files options).1 = .ok () →
        ∃ c, lookupSha (updateFiles w files options).2.commits
          (updateFiles w files options).2.head = some c) := by
  rcases hub : uploadAndBuild w [] files with ⟨r1, w1⟩
  have hq1 : UploadQuiet w w1 := by
    have h0 := uploadAndBuild_quiet w [] files
    rw [hub] at h0
    simpa using h0
  cases r1 with
  | error e1 =>
    have hmain : updateFiles w files options = (.error e1, w1) := by
      simp only [updateFiles, preRef]
      rw [hub]
    rw [hmain]
    constructor
    · intro e he
      simp only [Except.error.injEq] at he
      cases he
      exact ⟨hq1.uhead_eq, fun _ => hq1.ucommits_eq⟩
    · intro hok
      cases hok
  | ok ft =>
    have hrs : raceStep w1 = w1 := by
      rw [raceStep]
      have h0 : w1.raceHead = none := by rw [hq1.uraceHead_eq]; exact hrace
      rw [h0]
    rcases hut : updateTree w1 (some w1.head) "/" ft with ⟨r2, w2⟩
    have hq2 : TreeQuiet w1 w2 := by
      have h0 := updateTree_quiet w1 (some w1.head) "/" ft
      rw [hut] at h0
      simpa using h0
    cases r2 with
    | error e2 =>
      have hmain : updateFiles w files options = (.error e2, w2) := by
        simp only [updateFiles, preRef]
        rw [hub]
        dsimp only
        rw [hrs, hut]
      rw [hmain]
      constructor
      · intro e he
        simp only [Except.error.injEq] at he
        cases he
        refine ⟨by rw [hq2.head_eq, hq1.uhead_eq], fun _ => ?_⟩
        rw [hq2.commits_eq, hq1.ucommits_eq]
      · intro hok
        cases hok
    | ok ct =>
      have hparent : ct.parentSha = some w1.head := (updateTree_ok_shape hut).2.2.2
      cases hfc : w2.failCommit with
      | true =>
        have hmain : updateFiles w files options =
            (.error .commitCreateFailed, w2) := by
          simp only [updateFiles, preRef]
          rw [hub]
          dsimp only
          rw [hrs, hut]
          dsimp only
          simp [createCommitE, hfc]
        rw [hmain]
        constructor
        · intro e he
          simp only [Except.error.injEq] at he
          cases he
          refine ⟨by rw [hq2.head_eq, hq1.uhead_eq], fun _ => ?_⟩
          rw [hq2.commits_eq, hq1.ucommits_eq]
        · intro hok
          cases hok
      | false =>
        have hmain : updateFiles w files options =
            (.ok (),
             { w2 with
               commits := (freshSha w2.counter,
                 ⟨options.message, ct.sha, [ct.parentSha]⟩) :: w2.commits,
               counter := w2.counter + 1,
               head := freshSha w2.counter }) := by
          simp only [updateFiles, preRef]
          rw [hub]
          dsimp only
          rw [hrs, hut]
          dsimp only
          simp only [createCommitE, hfc, if_neg (by simp : ¬ (false = true))]
          rw [updateRefE]
          rw [lookupSha_cons_self]
          dsimp only
          rw [hparent]
          rw [if_pos (by simp [hq2.head_eq])]
        rw [hmain]
        constructor
        · intro e he
          cases he
        · intro _
          exact ⟨⟨options.message, ct.sha, [ct.parentSha]⟩,
            lookupSha_cons_self _ _ _⟩

/-- Closed instance for C2: an injected blob-upload failure aborts the call
and the ref (and commit store) are untouched. -/
theorem C2_atomic_ref_update_witness :
    ({ trees := [], blobs := [], commits := [], head := "h0", counter := 0,
       failUpload := true, failTree := false, failCommit := false,
       raceHead := none } : World).raceHead = none ∧
    ((∀ e, (updateFiles
        { trees := [], blobs := [], commits := [], head := "h0", counter := 0,
          failUpload := true, failTree := false, failCommit := false,
          raceHead := none }
        [⟨"a.txt", "hello", "", false, false⟩] ⟨"msg"⟩).1 = .error e →
        (updateFiles
          { trees := [], blobs := [], commits := [], head := "h0", counter := 0,
            failUpload := true, failTree := false, failCommit := false,
            raceHead := none }
          [⟨"a.txt", "hello", "", false, false⟩] ⟨"msg"⟩).2.head = "h0" ∧
        (e ≠ .notFastForward →
          (updateFiles
            { trees := [], blobs := [], commits := [], head := "h0", counter := 0,
              failUpload := true, failTree := false, failCommit := false,
              raceHead := none }
            [⟨"a.txt", "hello", "", false, false⟩] ⟨"msg"⟩).2.commits = [])) ∧
      ((updateFiles
          { trees := [], blobs := [], commits := [], head := "h0", counter := 0,
            failUpload := true, failTree := false, failCommit := false,
            raceHead := none }
          [⟨"a.txt", "hello", "", false, false⟩] ⟨"msg"⟩).1 = .ok () →
        ∃ c, lookupSha (updateFiles
            { trees := [], blobs := [], commits := [], head := "h0", counter := 0,
              failUpload := true, failTree := false, failCommit := false,
              raceHead := none }
            [⟨"a.txt", "hello", "", false, false⟩] ⟨"msg"⟩).2.commits
          (updateFiles
            { trees := [], blobs := [], commits := [], head := "h0", counter := 0,
              failUpload := true, failTree := false, failCommit := false,
              raceHead := none }
            [⟨"a.txt", "hello", "", false, false⟩] ⟨"msg"⟩).2.head = some c)) ∧
    (updateFiles
        { trees := [], blobs := [], commits := [], head := "h0", counter := 0,
          failUpload := true, failTree := false, failCommit := false,
          raceHead := none }
        [⟨"a.txt", "hello", "", false, false⟩] ⟨"msg"⟩).1 = .error .uploadFailed :=
  ⟨rfl,
   C2_atomic_ref_update _ _ _ rfl,
   rfl⟩

/-- C6: every successful `updateFiles` run created a commit whose message
is `options.message`, whose tree is the merged root tree's object id, and
whose parents are the one-element list holding the branch head commit id as
fetched in step 3 (threaded through the root merge's `parentSha` field);
the final branch ref names exactly that commit. -/
theorem C6_commit_fields {w w' : World} {files : List PendingFile} {options : Options}
    (h : updateFiles w files options = (.ok (), w')) :
    ∃ ft w1 r w2 cSha,
      uploadAndBuild w [] files = (.ok ft, w1) ∧
      w1.head = w.head ∧
      updateTree (raceStep w1) (some w1.head) "/" ft = (.ok r, w2) ∧
      w'.head = cSha ∧
      lookupSha w'.commits cSha = some ⟨options.message, r.sha, [some w1.head]⟩ := by
  rcases hpr : preRef w files options with ⟨rp, w4⟩
  simp only [updateFiles] at h
  rw [hpr] at h
  cases rp with
  | error e => cases h
  | ok cSha =>
    dsimp only at h
    rcases preRef_ok_decomp hpr with ⟨ft, w1, r, w2, hub, hut, hfc, hcs, hw4⟩
    have hq1 : UploadQuiet w w1 := by
      have h0 := uploadAndBuild_quiet w [] files
      rw [hub] at h0
      simpa using h0
    have hparent : r.parentSha = some w1.head := (updateTree_ok_shape hut).2.2.2
    rw [updateRefE, hw4] at h
    rw [lookupSha_cons_self] at h
    dsimp only at h
    split at h
    · simp only [Prod.mk.injEq, Except.ok.injEq] at h
      refine ⟨ft, w1, r, w2, cSha, hub, hq1.uhead_eq, hut, ?_, ?_⟩
      · rw [← h.2]
      · rw [← h.2]
        rw [hparent]
        exact lookupSha_cons_self _ _ _
    · cases h

/-- Closed instance for C6: a one-file commit against an empty root tree. -/
theorem C6_commit_fields_witness :
    (updateFiles
      { trees := [("h0", [])], blobs := [], commits := [], head := "h0", counter := 0,
        failUpload := false, failTree := false, failCommit := false, raceHead := none }
      [⟨"a.txt", "hello", "", false, false⟩] ⟨"msg"⟩).1 = .ok () ∧
    ∃ ft w1 r w2 cSha,
      uploadAndBuild
        { trees := [("h0", [])], blobs := [], commits := [], head := "h0", counter := 0,
          failUpload := false, failTree := false, failCommit := false, raceHead := none }
        [] [⟨"a.txt", "hello", "", false, false⟩] = (.ok ft, w1) ∧
      w1.head = "h0" ∧
      updateTree (raceStep w1) (some w1.head) "/" ft = (.ok r, w2) ∧
      (updateFiles
        { trees := [("h0", [])], blobs := [], commits := [], head := "h0", counter := 0,
          failUpload := false, failTree := false, failCommit := false, raceHead := none }
        [⟨"a.txt", "hello", "", false, false⟩] ⟨"msg"⟩).2.head = cSha ∧
      lookupSha (updateFiles
        { trees := [("h0", [])], blobs := [], commits := [], head := "h0", counter := 0,
          failUpload := false, failTree := false, failCommit := false, raceHead := none }
        [⟨"a.txt", "hello", "", false, false⟩] ⟨"msg"⟩).2.commits cSha =
        some ⟨"msg", r.sha, [some w1.head]⟩ := by
  have hub : uploadAndBuild
      { trees := [("h0", [])], blobs := [], commits := [], head := "h0", counter := 0,
        failUpload := false, failTree := false, failCommit := false, raceHead := none }
      [] [⟨"a.txt", "hello", "", false, false⟩] =
      (.ok [("a.txt", Node.file "new-0")],
       { trees := [("h0", [])], blobs := [("new-0", "hello")], commits := [],
         head := "h0", counter := 1, failUpload := false, failTree := false,
         failCommit := false, raceHead := none }) := by
    rfl
  have hut : updateTree
      (raceStep
        ({ trees := [("h0", [])], blobs := [("new-0", "hello")], commits := [],
           head := "h0", counter := 1, failUpload := false, failTree := false,
           failCommit := false, raceHead := none } : World))
      (some "h0") "/" [("a.txt", Node.file "new-0")] =
      (.ok ⟨"/", "040000", "tree", "new-1", some "h0"⟩,
       { trees := [("new-1", [⟨"a.txt", "100644", "blob", "new-0"⟩]), ("h0", [])],
         blobs := [("new-0", "hello")], commits := [],
         head := "h0", counter := 2, failUpload := false, failTree := false,
         failCommit := false, raceHead := none }) := by
    simp [raceStep, updateTree_eq, collectUpdates, passExisting_nil,
          passExisting_cons_none, passExisting_cons_file, passExisting_cons_dir,
          passNew_nil, passNew_cons_skip, passNew_cons_file, passNew_cons_dir,
          getTreeE, createTreeE, getKey, lookupSha, applyUpdates, freshSha]
    rfl
  have hrun : updateFiles
      { trees := [("h0", [])], blobs := [], commits := [], head := "h0", counter := 0,
        failUpload := false, failTree := false, failCommit := false, raceHead := none }
      [⟨"a.txt", "hello", "", false, false⟩] ⟨"msg"⟩ =
      (.ok (),
       { trees := [("new-1", [⟨"a.txt", "100644", "blob", "new-0"⟩]), ("h0", [])],
         blobs := [("new-0", "hello")],
         commits := [("new-2", ⟨"msg", "new-1", [some "h0"]⟩)],
         head := "new-2", counter := 3, failUpload := false, failTree := false,
         failCommit := false, raceHead := none }) := by
    simp only [updateFiles, preRef]
    rw [hub]
    dsimp only
    rw [hut]
    dsimp only
    simp [createCommitE, updateRefE, freshSha, lookupSha]
    rfl
  refine ⟨by rw [hrun], ?_⟩
  have hgoal := C6_commit_fields hrun
  rw [hrun]
  dsimp only
  rcases hgoal with ⟨ft, w1, r, w2, cSha, h1, h2, h3, h4, h5⟩
  exact ⟨ft, w1, r, w2, cSha, h1, by simpa using h2, h3, h4, h5⟩

/-- C8: if the branch head moves between `getBranch` and the ref update
(the simulated concurrent writer moving it to `h'`), a pre-ref pipeline
that completes is followed by a rejected `PATCH`: `updateFiles` surfaces
`NotFastForward` rather than silently succeeding, performs no forced
overwrite (the final head is the concurrent writer's commit, not this
call's), and returns the pre-`PATCH` world unchanged — no internal retry. -/
theorem C8_not_fast_forward {w w4 : World} {files : List PendingFile}
    {options : Options} {cSha h' : String}
    (hpre : preRef w files options = (.ok cSha, w4))
    (hrace : w.raceHead = some h')
    (hne : h' ≠ w.head) :
    updateFiles w files options = (.error .notFastForward, w4) ∧
    w4.head = h' ∧ w4.head ≠ w.head := by
  rcases preRef_ok_decomp hpre with ⟨ft, w1, r, w2, hub, hut, hfc, hcs, hw4⟩
  have hq1 : UploadQuiet w w1 := by
    have h0 := uploadAndBuild_quiet w [] files
    rw [hub] at h0
    simpa using h0
  have hrh1 : w1.raceHead = some h' := by rw [hq1.uraceHead_eq]; exact hrace
  have hrs : raceStep w1 = { w1 with head := h', raceHead := none } := by
    rw [raceStep, hrh1]
  have hq2 : TreeQuiet (raceStep w1) w2 := by
    have h0 := updateTree_quiet (raceStep w1) (some w1.head) "/" ft
    rw [hut] at h0
    simpa using h0
  have hw2head : w2.head = h' := by
    rw [hq2.head_eq, hrs]
  have hw4head : w4.head = h' := by
    rw [hw4]
    exact hw2head
  have hparent : r.parentSha = some w1.head := (updateTree_ok_shape hut).2.2.2
  have hw1head : w1.head = w.head := hq1.uhead_eq
  refine ⟨?_, hw4head, by rw [hw4head]; exact hne⟩
  simp only [updateFiles]
  rw [hpre]
  dsimp only
  rw [hw4]
  rw [updateRefE]
  rw [lookupSha_cons_self]
  dsimp only
  rw [hparent]
  rw [if_neg (by simp [hw2head, hw1head]; exact hne)]

/-- Closed instance for C8: the concurrent writer moves the head to
`"other"` after it was fetched; the completed pipeline's ref update is
rejected as non-fast-forward. -/
theorem C8_not_fast_forward_witness :
    ∃ cSha w4,
      preRef
        { trees := [("h0", [])], blobs := [], commits := [], head := "h0", counter := 0,
          failUpload := false, failTree := false, failCommit := false,
          raceHead := some "other" }
        [⟨"a.txt", "hello", "", false, false⟩] ⟨"msg"⟩ = (.ok cSha, w4) ∧
      updateFiles
        { trees := [("h0", [])], blobs := [], commits := [], head := "h0", counter := 0,
          failUpload := false, failTree := false, failCommit := false,
          raceHead := some "other" }
        [⟨"a.txt", "hello", "", false, false⟩] ⟨"msg"⟩ =
        (.error .notFastForward, w4) ∧
      w4.head = "other" ∧ w4.head ≠ "h0" := by
  have hub : uploadAndBuild
      { trees := [("h0", [])], blobs := [], commits := [], head := "h0", counter := 0,
        failUpload := false, failTree := false, failCommit := false,
        raceHead := some "other" }
      [] [⟨"a.txt", "hello", "", false, false⟩] =
      (.ok [("a.txt", Node.file "new-0")],
       { trees := [("h0", [])], blobs := [("new-0", "hello")], commits := [],
         head := "h0", counter := 1, failUpload := false, failTree := false,
         failCommit := false, raceHead := some "other" }) := by
    rfl
  have hut : updateTree
      (raceStep
        ({ trees := [("h0", [])], blobs := [("new-0", "hello")], commits := [],
           head := "h0", counter := 1, failUpload := false, failTree := false,
           failCommit := false, raceHead := some "other" } : World))
      (some "h0") "/" [("a.txt", Node.file "new-0")] =
      (.ok ⟨"/", "040000", "tree", "new-1", some "h0"⟩,
       { trees := [("new-1", [⟨"a.txt", "100644", "blob", "new-0"⟩]), ("h0", [])],
         blobs := [("new-0", "hello")], commits := [],
         head := "other", counter := 2, failUpload := false, failTree := false,
         failCommit := false, raceHead := none }) := by
    simp [raceStep, updateTree_eq, collectUpdates, passExisting_nil,
          passExisting_cons_none, passExisting_cons_file, passExisting_cons_dir,
          passNew_nil, passNew_cons_skip, passNew_cons_file, passNew_cons_dir,
          getTreeE, createTreeE, getKey, lookupSha, applyUpdates, freshSha]
    rfl
  have hpre : preRef
      { trees := [("h0", [])], blobs := [], commits := [], head := "h0", counter := 0,
        failUpload := false, failTree := false, failCommit := false,
        raceHead := some "other" }
      [⟨"a.txt", "hello", "", false, false⟩] ⟨"msg"⟩ =
      (.ok "new-2",
       { trees := [("new-1", [⟨"a.txt", "100644", "blob", "new-0"⟩]), ("h0", [])],
         blobs := [("new-0", "hello")],
         commits := [("new-2", ⟨"msg", "new-1", [some "h0"]⟩)],
         head := "other", counter := 3, failUpload := false, failTree := false,
         failCommit := false, raceHead := none }) := by
    simp only [preRef]
    rw [hub]
    dsimp only
    rw [hut]
    dsimp only
    simp [createCommitE, freshSha]
    rfl
  rcases C8_not_fast_forward hpre rfl (by simp) with ⟨h1, h2, h3⟩
  exact ⟨_, _, hpre, h1, h2, h3⟩

/-- Equality of everything the upload/build loop reads except the raw path
spelling: same split segments, content, sha and flags. -/
def PathEquiv (f g : PendingFile) : Prop :=
  splitPath f.path = splitPath g.path ∧ f.content = g.content ∧
  f.sha = g.sha ∧ f.uploaded = g.uploaded ∧ f.upload = g.upload

theorem uploadStep_pathEquiv {f g : PendingFile} (h : PathEquiv f g) (w : World) :
    (∃ e w', uploadStep w f = (.error e, w') ∧ uploadStep w g = (.error e, w')) ∨
    (∃ f' g' w', uploadStep w f = (.ok f', w') ∧ uploadStep w g = (.ok g', w') ∧
      PathEquiv f' g') := by
  obtain ⟨h1, h2, h3, h4, h5⟩ := h
  simp only [uploadStep]
  rw [← h5]
  by_cases hu : f.upload
  · right
    exact ⟨f, g, w, by rw [if_pos hu], by rw [if_pos hu], h1, h2, h3, h4, h5⟩
  · rw [if_neg hu, if_neg hu]
    by_cases hf : w.failUpload
    · left
      exact ⟨.uploadFailed, w, by rw [if_pos hf], by rw [if_pos hf]⟩
    · right
      refine ⟨{ f with sha := freshSha w.counter, uploaded := true },
              { g with sha := freshSha w.counter, uploaded := true },
              { w with blobs := (freshSha w.counter, f.content) :: w.blobs,
                       counter := w.counter + 1 },
              by rw [if_neg hf], ?_, h1, h2, rfl, rfl, h5⟩
      rw [if_neg hf, ← h2, h5]

theorem uploadAndBuild_pathEquiv {files1 files2 : List PendingFile}
    (h : List.Forall₂ PathEquiv files1 files2) :
    ∀ w ftacc, uploadAndBuild w ftacc files1 = uploadAndBuild w ftacc files2 := by
  induction h with
  | nil => intro w ftacc; rfl
  | cons hfg htail ih =>
    intro w ftacc
    rename_i f g l1 l2
    rw [uploadAndBuild, uploadAndBuild]
    rw [← hfg.2.2.2.1]
    by_cases hup : f.uploaded
    · rw [if_pos hup, if_pos hup]
      exact ih w ftacc
    · rw [if_neg hup, if_neg hup]
      rcases uploadStep_pathEquiv hfg w with ⟨e, w', he1, he2⟩ | ⟨f', g', w', ho1, ho2, heq⟩
      · rw [he1, he2]
      · rw [ho1, ho2]
        dsimp only
        rw [heq.1, heq.2.2.1]
        exact ih w' _

/-- C10: the built directory tree depends only on each path's slash-split
nonempty segments: for input file lists that agree except for leading,
trailing or repeated slashes in their paths (equal `splitPath` images and
equal content/sha/flags), the built `fileTree`, the world after uploads and
the entire `updateFiles` run coincide. -/
theorem C10_slash_normalization {files1 files2 : List PendingFile}
    (h : List.Forall₂ (fun f g =>
      splitPath f.path = splitPath g.path ∧ f.content = g.content ∧
      f.sha = g.sha ∧ f.uploaded = g.uploaded ∧ f.upload = g.upload) files1 files2) :
    ∀ w options,
      uploadAndBuild w [] files1 = uploadAndBuild w [] files2 ∧
      updateFiles w files1 options = updateFiles w files2 options := by
  have h' : List.Forall₂ PathEquiv files1 files2 := h
  intro w options
  refine ⟨uploadAndBuild_pathEquiv h' w [], ?_⟩
  simp only [updateFiles, preRef]
  rw [uploadAndBuild_pathEquiv h' w []]

/-- Closed instance for C10: `"/a//b.txt"` and `"a/b.txt"` produce the same
run. -/
theorem C10_slash_normalization_witness :
    uploadAndBuild w0ex [] [⟨"/a//b.txt", "hello", "", false, false⟩] =
      uploadAndBuild w0ex [] [⟨"a/b.txt", "hello", "", false, false⟩] ∧
    updateFiles w0ex [⟨"/a//b.txt", "hello", "", false, false⟩] ⟨"msg"⟩ =
      updateFiles w0ex [⟨"a/b.txt", "hello", "", false, false⟩] ⟨"msg"⟩ :=
  C10_slash_normalization
    (List.Forall₂.cons ⟨by rfl, rfl, rfl, rfl, rfl⟩ List.Forall₂.nil)
    w0ex ⟨"msg"⟩

/-! ### Object assignment lemmas for the path-placement loop -/

theorem find?_congr_mem {α : Type} {p q : α → Bool} {l : List α}
    (h : ∀ x ∈ l, p x = q x) : l.find? p = l.find? q := by
  induction l with
  | nil => rfl
  | cons a rest ih =>
    rw [List.find?, List.find?, h a (by simp)]
    cases hq : q a with
    | true => rfl
    | false => exact ih (fun x hx => h x (by simp [hx]))

theorem getKey_setKey_self (t : FileTree) (k : String) (v : Node) :
    getKey (setKey t k v) k = some v := by
  rw [setKey]
  split
  · rename_i hany
    rw [getKey, List.find?_map]
    have hcong : ∀ p ∈ t,
        ((fun p => decide (p.1 = k)) ∘ (fun p => if p.1 = k then (k, v) else p)) p =
        (fun p => decide (p.1 = k)) p := by
      intro p _
      by_cases hpk : p.1 = k
      · simp [hpk]
      · simp [hpk]
    rw [find?_congr_mem hcong]
    have hex : ∃ x, x ∈ t ∧ (fun p => decide (p.1 = k)) x = true := by
      rcases List.any_eq_true.mp hany with ⟨p, hp, hpk⟩
      exact ⟨p, hp, hpk⟩
    rcases Option.isSome_iff_exists.mp (List.find?_isSome.mpr hex) with ⟨p0, hfind⟩
    have hp0 : p0.1 = k := by simpa using List.find?_some hfind
    rw [hfind]
    simp [hp0]
  · rename_i hany
    have hnot : ∀ p ∈ t, ¬ (p.1 = k) := by
      intro p hp hk
      exact hany (List.any_eq_true.mpr ⟨p, hp, by simp [hk]⟩)
    rw [getKey, List.find?_append]
    have h1 : t.find? (fun p => p.1 = k) = none :=
      List.find?_eq_none.mpr (fun p hp => by simpa using hnot p hp)
    rw [h1]
    simp [List.find?]

theorem getKey_setKey_other {t : FileTree} {k k' : String} (v : Node) (h : k' ≠ k) :
    getKey (setKey t k v) k' = getKey t k' := by
  rw [setKey]
  split
  · rw [getKey, List.find?_map]
    have hcong : ∀ p ∈ t,
        ((fun p => decide (p.1 = k')) ∘ (fun p => if p.1 = k then (k, v) else p)) p =
        (fun p => decide (p.1 = k')) p := by
      intro p _
      by_cases hpk : p.1 = k
      · simp [hpk]
      · simp [hpk]
    rw [find?_congr_mem hcong]
    cases hf : t.find? (fun p => decide (p.1 = k')) with
    | none => rw [getKey, hf]; rfl
    | some p0 =>
      have hp0 : p0.1 = k' := by simpa using List.find?_some hf
      rw [getKey, hf]
      have : (if p0.1 = k then (k, v) else p0) = p0 := by
        rw [if_neg (by rw [hp0]; exact h)]
      simp [this]
  · rw [getKey, List.find?_append]
    have h1 : List.find? (fun p => p.1 = k') [(k, v)] = none := by
      rw [List.find?]
      have hd : decide ((k, v).1 = k') = false := by
        simp
        exact fun hh => h hh.symm
      rw [hd, List.find?]
    rw [h1, getKey]
    cases t.find? (fun p => decide (p.1 = k')) <;> rfl

/-- The directory walk of one file's placement: all split segments but the
last (`parts` after `parts.pop()`). -/
def pathDirs (f : PendingFile) : List String := (splitPath f.path).dropLast

/-- The `filename` of one file's placement (`parts.pop()`; an empty split
leaves JS's `undefined`, stringified). -/
def pathFname (f : PendingFile) : String :=
  (splitPath f.path).getLast?.getD "undefined"

theorem splitPath_decomp {f : PendingFile} (h : splitPath f.path ≠ []) :
    pathDirs f ++ [pathFname f] = splitPath f.path := by
  rw [pathDirs, pathFname, List.getLast?_eq_getLast _ h]
  exact List.dropLast_append_getLast h

theorem dirsOk_nil (dirs : List String) : dirsOk [] dirs = true := by
  cases dirs with
  | nil => rfl
  | cons d rest => rw [dirsOk]; rfl

/-- A freshly built chain blocks a directory walk only along its own file
path. -/
theorem dirsOk_freshChain (s : String) :
    ∀ (dirs' : List String) (f' : String) (r : List String),
      ¬ ((dirs' ++ [f']) <+: r) →
      dirsOk (insertParts [] dirs' f' (Node.file s)) r = true := by
  intro dirs'
  induction dirs' with
  | nil =>
    intro f' r hpre
    rw [insertParts]
    cases r with
    | nil => rfl
    | cons a ra =>
      have haf : a ≠ f' := by
        intro hh
        exact hpre (by rw [hh]; exact ⟨ra, rfl⟩)
      rw [dirsOk]
      have : getKey (setKey [] f' (Node.file s)) a = none := by
        rw [getKey_setKey_other _ haf]
        rfl
      rw [this]
  | cons b rb ih =>
    intro f' r hpre
    rw [insertParts]
    have hgk : getKey ([] : FileTree) b = none := rfl
    rw [hgk]
    cases r with
    | nil => rfl
    | cons a ra =>
      rw [dirsOk]
      by_cases hab : a = b
      · subst hab
        rw [getKey_setKey_self]
        apply ih
        intro hpre'
        exact hpre (by
          rw [List.cons_append]
          exact (List.cons_prefix_cons.mpr ⟨rfl, hpre'⟩))
      · rw [getKey_setKey_other _ hab]
        rfl

/-- Inserting along an unobstructed directory path creates the leaf. -/
theorem hasLeaf_insertParts_self (s : String) :
    ∀ (dirs : List String) (t : FileTree) (fname : String),
      dirsOk t dirs = true →
      hasLeaf (insertParts t dirs fname (Node.file s)) dirs fname = true := by
  intro dirs
  induction dirs with
  | nil =>
    intro t fname _
    rw [insertParts, hasLeaf, getKey_setKey_self]
  | cons d rest ih =>
    intro t fname hok
    rw [dirsOk] at hok
    rw [insertParts]
    cases hgk : getKey t d with
    | none =>
      rw [hgk] at hok
      rw [hasLeaf, getKey_setKey_self]
      exact ih [] fname (dirsOk_nil rest)
    | some n =>
      rw [hgk] at hok
      cases n with
      | file s0 => cases hok
      | dir cs =>
        rw [hasLeaf, getKey_setKey_self]
        exact ih cs fname hok

/-- An insertion that is not a strictly deeper overwrite preserves every
existing leaf. -/
theorem hasLeaf_insertParts_other (s : String) :
    ∀ (dirs : List String) (t : FileTree) (fname : String)
      (dirs' : List String) (f' : String),
      ¬ ((dirs ++ [fname]) <+: (dirs' ++ [f']) ∧ dirs ++ [fname] ≠ dirs' ++ [f']) →
      hasLeaf t dirs' f' = true →
      hasLeaf (insertParts t dirs fname (Node.file s)) dirs' f' = true := by
  intro dirs
  induction dirs with
  | nil =>
    intro t fname dirs' f' hpre hleaf
    rw [insertParts]
    cases dirs' with
    | nil =>
      rw [hasLeaf]
      by_cases hff : fname = f'
      · rw [hff, getKey_setKey_self]
      · rw [getKey_setKey_other _ (fun hh => hff hh.symm)]
        rw [hasLeaf] at hleaf
        exact hleaf
    | cons d' r' =>
      have hfd : fname ≠ d' := by
        intro hh
        apply hpre
        constructor
        · rw [List.nil_append, hh]
          exact ⟨r' ++ [f'], rfl⟩
        · intro heq
          have := congrArg List.length heq
          simp at this
      rw [hasLeaf] at hleaf ⊢
      rw [getKey_setKey_other _ (fun hh => hfd hh.symm)]
      exact hleaf
  | cons d r ih =>
    intro t fname dirs' f' hpre hleaf
    rw [insertParts]
    cases hgk : getKey t d with
    | none =>
      cases dirs' with
      | nil =>
        rw [hasLeaf] at hleaf ⊢
        by_cases hfd : f' = d
        · rw [hfd, hgk] at hleaf
          cases hleaf
        · rw [getKey_setKey_other _ hfd]
          exact hleaf
      | cons d' r' =>
        rw [hasLeaf] at hleaf ⊢
        by_cases hdd : d' = d
        · rw [hdd, hgk] at hleaf
          cases hleaf
        · rw [getKey_setKey_other _ hdd]
          exact hleaf
    | some n =>
      cases n with
      | file s0 => exact hleaf
      | dir cs =>
        cases dirs' with
        | nil =>
          rw [hasLeaf] at hleaf ⊢
          by_cases hfd : f' = d
          · rw [hfd, hgk] at hleaf
            cases hleaf
          · rw [getKey_setKey_other _ hfd]
            exact hleaf
        | cons d' r' =>
          rw [hasLeaf] at hleaf ⊢
          by_cases hdd : d' = d
          · subst hdd
            rw [hgk] at hleaf
            rw [getKey_setKey_self]
            apply ih cs fname r' f' ?_ hleaf
            intro ⟨hp1, hp2⟩
            apply hpre
            constructor
            · rw [List.cons_append]
              exact List.cons_prefix_cons.mpr ⟨rfl, hp1⟩
            · intro heq
              rw [List.cons_append] at heq
              exact hp2 (by injection heq)
          · rw [getKey_setKey_other _ hdd]
            exact hleaf

/-- An insertion whose file does not land on the walked directory path
preserves unobstructedness. -/
theorem dirsOk_insertParts (s : String) :
    ∀ (dirs' : List String) (t : FileTree) (f' : String) (r : List String),
      ¬ ((dirs' ++ [f']) <+: r) →
      dirsOk t r = true →
      dirsOk (insertParts t dirs' f' (Node.file s)) r = true := by
  intro dirs'
  induction dirs' with
  | nil =>
    intro t f' r hpre hok
    rw [insertParts]
    cases r with
    | nil => rfl
    | cons a ra =>
      have haf : a ≠ f' := by
        intro hh
        exact hpre (by rw [hh]; exact ⟨ra, rfl⟩)
      rw [dirsOk] at hok ⊢
      rw [getKey_setKey_other _ haf]
      exact hok
  | cons b rb ih =>
    intro t f' r hpre hok
    rw [insertParts]
    cases hgk : getKey t b with
    | none =>
      cases r with
      | nil => rfl
      | cons a ra =>
        rw [dirsOk] at hok ⊢
        by_cases hab : a = b
        · subst hab
          rw [getKey_setKey_self]
          apply dirsOk_freshChain
          intro hpre'
          exact hpre (by
            rw [List.cons_append]
            exact List.cons_prefix_cons.mpr ⟨rfl, hpre'⟩)
        · rw [getKey_setKey_other _ hab]
          exact hok
    | some n =>
      cases n with
      | file s0 => exact hok
      | dir cs =>
        cases r with
        | nil => rfl
        | cons a ra =>
          rw [dirsOk] at hok ⊢
          by_cases hab : a = b
          · subst hab
            rw [getKey_setKey_self]
            rw [hgk] at hok
            apply ih cs f' ra ?_ hok
            intro hpre'
            exact hpre (by
              rw [List.cons_append]
              exact List.cons_prefix_cons.mpr ⟨rfl, hpre'⟩)
          · rw [getKey_setKey_other _ hab]
            exact hok

theorem uploadStep_ok_path {w w1 : World} {f f' : PendingFile}
    (h : uploadStep w f = (.ok f', w1)) : f'.path = f.path := by
  rw [uploadStep] at h
  split at h
  · simp only [Prod.mk.injEq, Except.ok.injEq] at h
    rw [← h.1]
  · split at h
    · cases h
    · simp only [Prod.mk.injEq, Except.ok.injEq] at h
      rw [← h.1]

/-- Main induction for the build loop: under mutually prefix-free, nonempty,
not-yet-uploaded paths (and an accumulator not blocking them), every such
file ends at a leaf, and every pre-existing leaf not strictly above an
inserted path survives. -/
theorem uploadAndBuild_leaves :
    ∀ (files : List PendingFile) (w : World) (t : FileTree) (ft : FileTree) (w' : World),
      uploadAndBuild w t files = (.ok ft, w') →
      (∀ f ∈ files, ∀ g ∈ files, f.uploaded = false → g.uploaded = false →
        ¬ (splitPath f.path <+: splitPath g.path ∧
           splitPath f.path ≠ splitPath g.path)) →
      (∀ f ∈ files, f.uploaded = false → splitPath f.path ≠ []) →
      (∀ f ∈ files, f.uploaded = false → dirsOk t (pathDirs f) = true) →
      (∀ f ∈ files, f.uploaded = false →
        hasLeaf ft (pathDirs f) (pathFname f) = true) ∧
      (∀ dirs' f', hasLeaf t dirs' f' = true →
        (∀ g ∈ files, g.uploaded = false →
          ¬ (splitPath g.path <+: dirs' ++ [f'] ∧
             splitPath g.path ≠ dirs' ++ [f'])) →
        hasLeaf ft dirs' f' = true) := by
  intro files
  induction files with
  | nil =>
    intro w t ft w' hrun _ _ _
    rw [uploadAndBuild] at hrun
    simp only [Prod.mk.injEq, Except.ok.injEq] at hrun
    constructor
    · intro f hf
      cases hf
    · intro dirs' f' hleaf _
      rw [← hrun.1]
      exact hleaf
  | cons f rest ih =>
    intro w t ft w' hrun hpair hne hdirs
    rw [uploadAndBuild] at hrun
    by_cases hup : f.uploaded
    · rw [if_pos hup] at hrun
      have hres := ih w t ft w' hrun
        (fun a ha b hb => hpair a (by simp [ha]) b (by simp [hb]))
        (fun a ha => hne a (by simp [ha]))
        (fun a ha => hdirs a (by simp [ha]))
      constructor
      · intro g hg hgup
        rcases List.mem_cons.mp hg with rfl | hg'
        · rw [hup] at hgup
          cases hgup
        · exact hres.1 g hg' hgup
      · intro dirs' f' hleaf hcond
        exact hres.2 dirs' f' hleaf (fun g hg => hcond g (by simp [hg]))
    · rw [if_neg hup] at hrun
      rcases hus : uploadStep w f with ⟨res, w1⟩
      rw [hus] at hrun
      cases res with
      | error e => cases hrun
      | ok f1 =>
        dsimp only at hrun
        have hpath : f1.path = f.path := uploadStep_ok_path hus
        rw [hpath] at hrun
        have hrun' : uploadAndBuild w1
            (insertParts t (pathDirs f) (pathFname f) (Node.file f1.sha)) rest =
            (.ok ft, w') := hrun
        have hfu : f.uploaded = false := by simpa using hup
        have hfne : splitPath f.path ≠ [] := hne f (by simp) hfu
        have hdecomp : pathDirs f ++ [pathFname f] = splitPath f.path :=
          splitPath_decomp hfne
        have hdirs1 : ∀ g ∈ rest, g.uploaded = false →
            dirsOk (insertParts t (pathDirs f) (pathFname f) (Node.file f1.sha))
              (pathDirs g) = true := by
          intro g hg hgup
          apply dirsOk_insertParts
          · rw [hdecomp]
            intro hp
            have h1 : splitPath f.path <+: splitPath g.path :=
              hp.trans (List.dropLast_prefix _)
            have h2 : splitPath f.path ≠ splitPath g.path := by
              intro heq
              have hl1 := hp.length_le
              have hgne := hne g (by simp [hg]) hgup
              have hl2 : (pathDirs g).length < (splitPath g.path).length := by
                rw [pathDirs, List.length_dropLast]
                cases hsp : splitPath g.path with
                | nil => exact absurd hsp hgne
                | cons x xs => simp
              rw [heq] at hl1
              omega
            exact hpair f (by simp) g (by simp [hg]) hfu hgup ⟨h1, h2⟩
          · exact hdirs g (by simp [hg]) hgup
        have hres := ih w1 _ ft w' hrun'
          (fun a ha b hb => hpair a (by simp [ha]) b (by simp [hb]))
          (fun a ha => hne a (by simp [ha]))
          hdirs1
        constructor
        · intro g hg hgup
          rcases List.mem_cons.mp hg with rfl | hg'
          · apply hres.2 (pathDirs g) (pathFname g)
            · exact hasLeaf_insertParts_self _ (pathDirs g) t (pathFname g)
                (hdirs g (by simp) hgup)
            · intro g' hg' hg'up
              rw [hdecomp]
              exact hpair g' (by simp [hg']) g (by simp) hg'up hgup
          · exact hres.1 g hg' hgup
        · intro dirs' f' hleaf hcond
          apply hres.2 dirs' f'
          · apply hasLeaf_insertParts_other
            · rw [hdecomp]
              exact hcond f (by simp) hfu
            · exact hleaf
          · intro g hg hgup
            exact hcond g (by simp [hg]) hgup

/-- C7 counterexample: a file already marked `uploaded = true` is skipped
entirely by the build loop (`if (file.uploaded) { continue; }` precedes the
path placement), so its path gets no leaf — the built tree is the empty
object, refuting the claim that every input file's path occupies a leaf
position. -/
theorem C7_uploaded_file_dropped :
    uploadAndBuild w0ex [] [⟨"a.txt", "hello", "sha0", true, false⟩] =
      (.ok [], w0ex) ∧
    hasLeaf ([] : FileTree)
      (pathDirs ⟨"a.txt", "hello", "sha0", true, false⟩)
      (pathFname ⟨"a.txt", "hello", "sha0", true, false⟩) = false :=
  ⟨rfl, rfl⟩

/-- C7 (amended): the directory tree is built only from the files *not*
already marked uploaded — a file with `uploaded = true` is skipped entirely
by the loop before any placement — while, for mutually prefix-free nonempty
split paths, every file with `uploaded = false` occupies a leaf position at
its slash-split path in the built tree. -/
theorem C7_only_pending_files_placed :
    (∀ (w : World) (t : FileTree) (f : PendingFile) (rest : List PendingFile),
        f.uploaded = true →
        uploadAndBuild w t (f :: rest) = uploadAndBuild w t rest) ∧
    ∀ (files : List PendingFile) (w : World) (ft : FileTree) (w' : World),
      uploadAndBuild w [] files = (.ok ft, w') →
      (∀ f ∈ files, ∀ g ∈ files, f.uploaded = false → g.uploaded = false →
          isProperPrefix (splitPath f.path) (splitPath g.path) = false) →
      (∀ f ∈ files, f.uploaded = false → splitPath f.path ≠ []) →
      ∀ f ∈ files, f.uploaded = false →
        hasLeaf ft (pathDirs f) (pathFname f) = true := by
  constructor
  · intro w t f rest hup
    rw [uploadAndBuild, if_pos hup]
  · intro files w ft w' hrun hpair hne
    have hpair' : ∀ f ∈ files, ∀ g ∈ files, f.uploaded = false → g.uploaded = false →
        ¬ (splitPath f.path <+: splitPath g.path ∧
           splitPath f.path ≠ splitPath g.path) := by
      intro f hf g hg hfu hgu
      have hb := hpair f hf g hg hfu hgu
      intro ⟨h1, h2⟩
      rw [isProperPrefix] at hb
      rw [List.isPrefixOf_iff_prefix.mpr h1] at hb
      simp [h2] at hb
    exact (uploadAndBuild_leaves files w [] ft w' hrun hpair' hne
      (fun f _ _ => dirsOk_nil (pathDirs f))).1

/-- Closed instance for the amended C7: one pending file at `"a/b.txt"`
lands as a leaf under the `"a"` directory. -/
theorem C7_only_pending_files_placed_witness :
    (uploadAndBuild w0ex [] [⟨"a/b.txt", "hello", "", false, false⟩] =
      (.ok [("a", Node.dir [("b.txt", Node.file "new-0")])],
       { trees := [], blobs := [("new-0", "hello")], commits := [], head := "h0",
         counter := 1, failUpload := false, failTree := false, failCommit := false,
         raceHead := none })) ∧
    (uploadAndBuild w0ex [] [⟨"a.txt", "x", "s", true, false⟩] =
      uploadAndBuild w0ex [] []) ∧
    hasLeaf [("a", Node.dir [("b.txt", Node.file "new-0")])]
      (pathDirs ⟨"a/b.txt", "hello", "", false, false⟩)
      (pathFname ⟨"a/b.txt", "hello", "", false, false⟩) = true := by
  have hrun : uploadAndBuild w0ex [] [⟨"a/b.txt", "hello", "", false, false⟩] =
      (.ok [("a", Node.dir [("b.txt", Node.file "new-0")])],
       { trees := [], blobs := [("new-0", "hello")], commits := [], head := "h0",
         counter := 1, failUpload := false, failTree := false, failCommit := false,
         raceHead := none }) := by
    rfl
  refine ⟨hrun,
    C7_only_pending_files_placed.1 w0ex [] ⟨"a.txt", "x", "s", true, false⟩ [] rfl, ?_⟩
  apply (C7_only_pending_files_placed.2
      [⟨"a/b.txt", "hello", "", false, false⟩] w0ex _ _ hrun ?_ ?_)
      ⟨"a/b.txt", "hello", "", false, false⟩ (by simp) rfl
  · intro f hf g hg _ _
    simp only [List.mem_singleton] at hf hg
    subst hf
    subst hg
    rfl
  · intro f hf _
    simp only [List.mem_singleton] at hf
    subst hf
    intro hh
    cases hh

end GithubApi
